import Mathlib

/-!
Shallow embedding of the sparse mixture-of-experts routing engine of
`divan/module/kan_convs/moe_kan.py` (class `SparseDispatcher` and class
`MoEKANConvBase`), together with theorems checking the specification's
claims about it.

Tensors are modelled as lists (`List α` for vectors, `List (List α)` for
matrices, row = batch element).  The dispatcher bookkeeping is generic over
a linear ordered field so that it can be evaluated over `ℚ`; the parts of
the code that use `exp` / `log` / `softplus` are modelled over `ℝ`.
`torch.sort` (stable on the sorted lexicographic output of `torch.nonzero`)
is modelled by a stable insertion sort on the expert component.
-/

namespace MoE

/-- Matrix entry access: `mget g b e` is `g[b][e]`, with `0` out of range
(matching the shapes established by the hypotheses of each theorem). -/
def mget {α : Type} [Zero α] (g : List (List α)) (b e : ℕ) : α :=
  (g.getD b []).getD e 0

section Dispatcher

variable {α : Type} [LinearOrderedField α]

/-- `torch.nonzero(gates)`: the indices `(b, e)` with `gates[b][e] ≠ 0`, in
row-major (lexicographic) order. -/
def nonzeroPairs (B E : ℕ) (g : List (List α)) : List (ℕ × ℕ) :=
  (List.range B).flatMap
    (fun b => (((List.range E).filter (fun e => mget g b e ≠ 0)).map (fun e => (b, e))))

/-- One step of the stable insertion sort on the expert (second) component:
`p` is placed before the first element whose expert index is `≥ p.2`. -/
def insertByExpert (p : ℕ × ℕ) : List (ℕ × ℕ) → List (ℕ × ℕ)
  | [] => [p]
  | q :: l => if q.2 < p.2 then q :: insertByExpert p l else p :: q :: l

/-- Stable sort by expert index, modelling `torch.nonzero(gates).sort(0)`
as used by `SparseDispatcher.__init__` (on the row-major nonzero list the
batch column is already sorted, so the net effect of the source's
column-wise sort plus gather is a stable sort of the pairs by expert). -/
def sortByExpert : List (ℕ × ℕ) → List (ℕ × ℕ)
  | [] => []
  | p :: l => insertByExpert p (sortByExpert l)

/-- The nonzero `(batch, expert)` pairs ordered by expert, ties kept in
batch order; the common bookkeeping of `SparseDispatcher.__init__`. -/
def sortedPairs (B E : ℕ) (g : List (List α)) : List (ℕ × ℕ) :=
  sortByExpert (nonzeroPairs B E g)

/-- `self._batch_index = sorted_experts[index_sorted_experts[:, 1], 0]`. -/
def batchIndex (B E : ℕ) (g : List (List α)) : List ℕ :=
  (sortedPairs B E g).map Prod.fst

/-- `self._expert_index` (the sorted expert column). -/
def expertIndex (B E : ℕ) (g : List (List α)) : List ℕ :=
  (sortedPairs B E g).map Prod.snd

/-- `self._part_sizes = list((gates > 0).sum(0))`. -/
def partSizes (B E : ℕ) (g : List (List α)) : List ℕ :=
  (List.range E).map (fun e => ((List.range B).filter (fun b => 0 < mget g b e)).length)

/-- `self._nonzero_gates = torch.gather(gates[self._batch_index], 1,
self._expert_index)`. -/
def nonzeroGates (B E : ℕ) (g : List (List α)) : List α :=
  (sortedPairs B E g).map (fun p => mget g p.1 p.2)

/-- `torch.split(l, sizes, dim=0)`. -/
def splitSizes {β : Type} (l : List β) : List ℕ → List (List β)
  | [] => []
  | n :: ns => l.take n :: splitSizes (l.drop n) ns

/-- `SparseDispatcher.dispatch`: gather the input along `_batch_index` and
split by `_part_sizes`. -/
def dispatch (B E : ℕ) (g : List (List α)) (inp : List α) : List (List α) :=
  splitSizes ((batchIndex B E g).map (fun b => inp.getD b 0)) (partSizes B E g)

/-- `zeros.index_add(0, index, values)` modelled as a left fold of indexed
in-place additions. -/
def indexAdd (init : List α) (ps : List (ℕ × α)) : List α :=
  ps.foldl (fun acc q => acc.set q.1 (acc.getD q.1 0 + q.2)) init

end Dispatcher

/-- `np.finfo(float).eps`, i.e. `2 ** (-52)`. -/
noncomputable def machineEps : ℝ := 1 / 2 ^ 52

/-- `SparseDispatcher.combine` (the per-unit feature dimensions are
collapsed to scalars; `conv_dims` only reshapes for broadcasting, which is
the identity in the scalar model): exponentiate the concatenated expert
outputs, optionally multiply by the nonzero gates, `index_add` into a zero
vector of length `B`, replace exact zeros by machine epsilon, take logs. -/
noncomputable def combine (B E : ℕ) (g : List (List ℝ)) (expertOut : List (List ℝ))
    (multiplyByGates : Bool) : List ℝ :=
  let stitched := expertOut.flatten.map Real.exp
  let stitched2 :=
    if multiplyByGates then List.zipWith (· * ·) (nonzeroGates B E g) stitched else stitched
  let combined := indexAdd (List.replicate B (0 : ℝ)) ((batchIndex B E g).zip stitched2)
  (combined.map (fun v => if v = 0 then machineEps else v)).map Real.log

section Gating

/-- `x @ w` for `x : B×D` and `w : D×E`. -/
noncomputable def matMul (x w : List (List ℝ)) : List (List ℝ) :=
  x.map (fun row =>
    (List.range ((w.getD 0 []).length)).map
      (fun e => ((List.range w.length).map (fun d => row.getD d 0 * mget w d e)).sum))

/-- `nn.Softplus()`. -/
noncomputable def softplus (v : ℝ) : ℝ := Real.log (1 + Real.exp v)

/-- `nn.Softmax(1)` applied to one row. -/
noncomputable def softmaxRow (v : List ℝ) : List ℝ :=
  v.map (fun y => Real.exp y / ((v.map Real.exp).sum))

/-- Insertion step for the descending argsort of a row; ties are broken by
ascending position, as `torch.topk` does on contiguous CPU tensors. -/
noncomputable def insertTop (row : List ℝ) (i : ℕ) : List ℕ → List ℕ
  | [] => [i]
  | j :: l =>
    if row.getD i 0 < row.getD j 0 ∨ (row.getD j 0 = row.getD i 0 ∧ j < i) then
      j :: insertTop row i l
    else i :: j :: l

/-- Insertion sort of a list of positions of `row`, by descending value. -/
noncomputable def sortIdx (row : List ℝ) : List ℕ → List ℕ
  | [] => []
  | i :: is => insertTop row i (sortIdx row is)

/-- The positions of `row` ordered by descending value (ties by ascending
position): the index output of a full `row.topk`. -/
noncomputable def argsortDesc (row : List ℝ) : List ℕ :=
  sortIdx row (List.range row.length)

/-- The index half of `row.topk(m)`. -/
noncomputable def topkIndices (row : List ℝ) (m : ℕ) : List ℕ :=
  (argsortDesc row).take m

/-- The value half of `row.topk(m)`. -/
noncomputable def topkValues (row : List ℝ) (m : ℕ) : List ℝ :=
  (topkIndices row m).map (fun j => row.getD j 0)

/-- `zeros.scatter(1, idxs, vals)` on one row of width `E`. -/
def scatterRow {α : Type} [Zero α] (E : ℕ) (idxs : List ℕ) (vals : List α) : List α :=
  (idxs.zip vals).foldl (fun acc q => acc.set q.1 q.2) (List.replicate E 0)

/-- One row of the gate matrix built by `noisy_top_k_gating` from the
corresponding row of `logits`: softmax over the top-`k` logits, scattered
back onto the `E` expert slots. -/
noncomputable def gatesRow (k E : ℕ) (row : List ℝ) : List ℝ :=
  scatterRow E ((topkIndices row (min (k + 1) E)).take k)
    (softmaxRow ((topkValues row (min (k + 1) E)).take k))

/-- `MoEKANConvBase._gates_to_load`: `(gates > 0).sum(0)`. -/
def gatesToLoad {α : Type} [LinearOrderedField α] (B E : ℕ) (g : List (List α)) : List ℕ :=
  (List.range E).map (fun e => ((List.range B).filter (fun b => 0 < mget g b e)).length)

/-- `MoEKANConvBase._prob_in_top_k`, entrywise.  The torch `Normal(0,
1).cdf` is external library code and is abstracted as the parameter `cdf`.
The thresholds are gathered from the flattened `noisy_top_values` at
positions `b*m + k` and `b*m + k - 1`, exactly as in the source. -/
noncomputable def probInTopK (cdf : ℝ → ℝ) (clean noisy stddev topValues : List (List ℝ))
    (k b e : ℕ) : ℝ :=
  let m := (topValues.getD 0 []).length
  let flat := topValues.flatten
  let thrIn := flat.getD (b * m + k) 0
  let thrOut := flat.getD (b * m + k - 1) 0
  if thrIn < mget noisy b e then cdf ((mget clean b e - thrIn) / mget stddev b e)
  else cdf ((mget clean b e - thrOut) / mget stddev b e)

/-- The `noise_stddev` matrix of `noisy_top_k_gating`:
`(softplus(x @ w_noise) + noise_epsilon) * train`. -/
noncomputable def noiseStddevOf (train : Bool) (noiseEps : ℝ) (x wNoise : List (List ℝ)) :
    List (List ℝ) :=
  (matMul x wNoise).map
    (fun row => row.map (fun v => (softplus v + noiseEps) * (if train then 1 else 0)))

/-- The `noisy_logits` matrix: `clean_logits + randn_like * noise_stddev`. -/
noncomputable def noisyLogitsOf (train : Bool) (E : ℕ) (noiseEps : ℝ)
    (x wGate wNoise noise : List (List ℝ)) : List (List ℝ) :=
  (List.range x.length).map (fun b =>
    (List.range E).map (fun e =>
      mget (matMul x wGate) b e + mget noise b e * mget (noiseStddevOf train noiseEps x wNoise) b e))

/-- The `logits` the router ranks: noisy when noisy gating is enabled,
clean otherwise. -/
noncomputable def gatingLogits (noisyGating train : Bool) (E : ℕ) (noiseEps : ℝ)
    (x wGate wNoise noise : List (List ℝ)) : List (List ℝ) :=
  if noisyGating then noisyLogitsOf train E noiseEps x wGate wNoise noise else matMul x wGate

/-- `MoEKANConvBase.noisy_top_k_gating`.  `noise` is the matrix of samples
that `torch.randn_like` would draw (the spec requires the random source to
be injectable); `cdf` abstracts `Normal(0, 1).cdf`.  Returns `(gates,
load)`. -/
noncomputable def noisyTopKGating (noisyGating train : Bool) (k E : ℕ) (noiseEps : ℝ)
    (x wGate wNoise noise : List (List ℝ)) (cdf : ℝ → ℝ) :
    List (List ℝ) × List ℝ :=
  let B := x.length
  let logits := gatingLogits noisyGating train E noiseEps x wGate wNoise noise
  let topLogits := logits.map (fun row => topkValues row (min (k + 1) E))
  let gates := logits.map (fun row => gatesRow k E row)
  let load :=
    if noisyGating ∧ k < E ∧ train then
      (List.range E).map (fun e =>
        ((List.range B).map (fun b =>
          probInTopK cdf (matMul x wGate)
            (noisyLogitsOf train E noiseEps x wGate wNoise noise)
            (noiseStddevOf train noiseEps x wNoise) topLogits k b e)).sum)
    else (gatesToLoad B E gates).map (fun n : ℕ => (n : ℝ))
  (gates, load)

end Gating

section Layer

/-- `MoEKANConvBase.cv_squared`: `0` on a single-element tensor, otherwise
the unbiased sample variance over the squared mean (stabilised by
`1e-10`). -/
noncomputable def listMean (x : List ℝ) : ℝ := x.sum / x.length

/-- Unbiased sample variance, the default of `torch.var`. -/
noncomputable def listVar (x : List ℝ) : ℝ :=
  (x.map (fun v => (v - listMean x) ^ 2)).sum / ((x.length : ℝ) - 1)

/-- `MoEKANConvBase.cv_squared`. -/
noncomputable def cvSquared (x : List ℝ) : ℝ :=
  if x.length = 1 then 0 else listVar x / (listMean x ^ 2 + 1e-10)

/-- `importance = gates.sum(0)`. -/
def importanceOf {α : Type} [LinearOrderedField α] (B E : ℕ) (g : List (List α)) : List α :=
  (List.range E).map (fun e => ((List.range B).map (fun b => mget g b e)).sum)

/-- Line 278 of the source: `[self.experts[i](expert_inputs[i]) for i in
range(self.num_experts)]` — every expert is applied to its sub-batch. -/
def appliedExperts {β : Type} (E : ℕ) (experts : ℕ → List β → List β)
    (inps : List (List β)) : List (List β) :=
  (List.range E).map (fun i => experts i (inps.getD i []))

/-- Modelled from the spec: the expert-application step as §7 of the spec
prescribes it ("empty-partition worker calls should short-circuit rather
than invoke the worker"): a worker whose sub-batch is empty is skipped and
contributes an empty output, all other workers are invoked as in the
source. -/
def appliedExpertsSkipEmpty {β : Type} (E : ℕ) (experts : ℕ → List β → List β)
    (inps : List (List β)) : List (List β) :=
  (List.range E).map (fun i => if (inps.getD i []).isEmpty then [] else experts i (inps.getD i []))

/-- `MoEKANConvBase.forward` (the `avgpool`/`flatten` shape glue is outside
the claims: `gateX` is the pooled summary batch `flatten(avgpool(x))` and
`x` the payload batch, scalar per unit). Returns `(y, loss)`. -/
noncomputable def forward (noisyGating train : Bool) (k E : ℕ) (noiseEps lossCoef : ℝ)
    (wGate wNoise noise : List (List ℝ)) (cdf : ℝ → ℝ) (experts : ℕ → List ℝ → List ℝ)
    (gateX : List (List ℝ)) (x : List ℝ) : List ℝ × ℝ :=
  let B := gateX.length
  let gl := noisyTopKGating noisyGating train k E noiseEps gateX wGate wNoise noise cdf
  let gates := gl.1
  let load := gl.2
  let importance := importanceOf B E gates
  let loss := (cvSquared importance + cvSquared load) * lossCoef
  let expertInputs := dispatch B E gates x
  let expertOutputs := appliedExperts E experts expertInputs
  (combine B E gates expertOutputs true, loss)

/-- The trainable state built by `MoEKANConvBase.__init__` (the expert
modules themselves are external convolution layers and are not part of the
state model; `w_gate` and `w_noise` are zero-initialised). -/
structure MoEState where
  numExperts : ℕ
  k : ℕ
  wGate : List (List ℝ)
  wNoise : List (List ℝ)

/-- `MoEKANConvBase.__init__`: builds the parameters and then runs
`assert (self.k <= self.num_experts)`; `none` models the `AssertionError`.
No other configuration check is performed. -/
noncomputable def moeInit (inputSize numExperts k : ℕ) : Option MoEState :=
  if k ≤ numExperts then
    some ⟨numExperts, k,
      List.replicate inputSize (List.replicate numExperts (0 : ℝ)),
      List.replicate inputSize (List.replicate numExperts (0 : ℝ))⟩
  else none

end Layer

section SortLemmas

/-- Concatenation of the key-`e` sublists of `l`, for `e` running over
`es`; the closed form of a stable sort by key when `es` is sorted. -/
def groupByKeys (es : List ℕ) (l : List (ℕ × ℕ)) : List (ℕ × ℕ) :=
  es.flatMap (fun e => l.filter (fun q => q.2 = e))

theorem insertByExpert_eq_cons (p : ℕ × ℕ) (m : List (ℕ × ℕ))
    (h : ∀ q ∈ m, ¬ q.2 < p.2) : insertByExpert p m = p :: m := by
  cases m with
  | nil => rfl
  | cons q l =>
    have := h q (List.mem_cons_self q l)
    simp [insertByExpert, this]

theorem insertByExpert_append (p : ℕ × ℕ) (pre rest : List (ℕ × ℕ))
    (h : ∀ q ∈ pre, q.2 < p.2) :
    insertByExpert p (pre ++ rest) = pre ++ insertByExpert p rest := by
  induction pre with
  | nil => rfl
  | cons q l ih =>
    have hq := h q (List.mem_cons_self q l)
    simp only [List.cons_append, insertByExpert, hq, if_pos]
    rw [List.append_eq, ih (fun r hr => h r (List.mem_cons_of_mem q hr))]

theorem groupByKeys_cons (e : ℕ) (es : List ℕ) (l : List (ℕ × ℕ)) :
    groupByKeys (e :: es) l = l.filter (fun q => decide (q.2 = e)) ++ groupByKeys es l := rfl

theorem mem_groupByKeys {es : List ℕ} {l : List (ℕ × ℕ)} {q : ℕ × ℕ}
    (h : q ∈ groupByKeys es l) : q.2 ∈ es := by
  simp only [groupByKeys, List.mem_flatMap, List.mem_filter] at h
  obtain ⟨e, he, _, hq⟩ := h
  simpa [decide_eq_true_eq] using (of_decide_eq_true hq ▸ he)

theorem insertByExpert_groupByKeys (p : ℕ × ℕ) (l : List (ℕ × ℕ)) :
    ∀ es : List ℕ, es.Sorted (· < ·) → p.2 ∈ es →
    insertByExpert p (groupByKeys es l) = groupByKeys es (p :: l) := by
  intro es
  induction es with
  | nil => intro _ h; exact absurd h (List.not_mem_nil p.2)
  | cons e es2 ih =>
    intro hsort hmem
    have hsort2 : es2.Sorted (· < ·) := hsort.of_cons
    have hlt : ∀ e2 ∈ es2, e < e2 := fun e2 h2 => List.rel_of_sorted_cons hsort e2 h2
    by_cases hpe : p.2 = e
    · have hfront : ∀ q ∈ groupByKeys (e :: es2) l, ¬ q.2 < p.2 := by
        intro q hq
        have hq2 := mem_groupByKeys hq
        rcases List.mem_cons.mp hq2 with h | h
        · omega
        · have := hlt q.2 h; omega
      rw [insertByExpert_eq_cons p _ hfront]
      have htail : groupByKeys es2 (p :: l) = groupByKeys es2 l := by
        unfold groupByKeys
        refine List.flatMap_congr ?_
        intro e2 he2
        have hne : ¬ (p.2 = e2) := by have := hlt e2 he2; omega
        simp [List.filter_cons, hne]
      rw [groupByKeys_cons, groupByKeys_cons, htail]
      have hhead : List.filter (fun q => decide (q.2 = e)) (p :: l) =
          p :: List.filter (fun q => decide (q.2 = e)) l := by
        simp [List.filter_cons, hpe]
      rw [hhead]
      simp
    · have hpmem : p.2 ∈ es2 := by
        rcases List.mem_cons.mp hmem with h | h
        · exact absurd h hpe
        · exact h
      have hegt : e < p.2 := hlt p.2 hpmem
      rw [groupByKeys_cons, groupByKeys_cons]
      rw [insertByExpert_append p _ _ (by
        intro q hq
        have : q.2 = e := by
          have := List.mem_filter.mp hq
          exact of_decide_eq_true this.2
        omega)]
      rw [ih hsort2 hpmem]
      have hhead : List.filter (fun q => decide (q.2 = e)) (p :: l) =
          List.filter (fun q => decide (q.2 = e)) l := by
        simp [List.filter_cons, hpe]
      rw [hhead]

theorem sortByExpert_eq_groupByKeys (es : List ℕ) (hsort : es.Sorted (· < ·)) :
    ∀ l : List (ℕ × ℕ), (∀ q ∈ l, q.2 ∈ es) → sortByExpert l = groupByKeys es l := by
  intro l
  induction l with
  | nil =>
    intro _
    simp [sortByExpert, groupByKeys]
  | cons p l ih =>
    intro hmem
    have h1 : sortByExpert (p :: l) = insertByExpert p (sortByExpert l) := rfl
    rw [h1, ih (fun q hq => hmem q (List.mem_cons_of_mem p hq))]
    exact insertByExpert_groupByKeys p l es hsort (hmem p (List.mem_cons_self p l))

end SortLemmas

section DispatchLemmas

variable {α : Type} [LinearOrderedField α]

theorem filter_range_eq_singleton (E e : ℕ) (P : ℕ → Bool) (he : e < E) :
    (List.range E).filter (fun x => decide (x = e) && P x) = if P e then [e] else [] := by
  induction E with
  | zero => omega
  | succ E ih =>
    rw [List.range_succ, List.filter_append]
    by_cases heE : e < E
    · rw [ih heE]
      have hlast : List.filter (fun x => decide (x = e) && P x) [E] = [] := by
        have : ¬ (E = e) := by omega
        simp [List.filter_cons, this]
      rw [hlast, List.append_nil]
    · have heq : e = E := by omega
      have hfront : List.filter (fun x => decide (x = e) && P x) (List.range E) = [] := by
        rw [List.filter_eq_nil_iff]
        intro a ha
        have : a < E := List.mem_range.mp ha
        have : ¬ (a = e) := by omega
        simp [this]
      rw [hfront, List.nil_append]
      subst heq
      cases h : P e <;> simp [List.filter_cons, h]

/-- Closed form of the dispatcher bookkeeping: the nonzero pairs grouped by
expert, each group in ascending batch order. -/
theorem sortedPairs_eq (B E : ℕ) (g : List (List α)) :
    sortedPairs B E g = (List.range E).flatMap
      (fun e => (((List.range B).filter (fun b => mget g b e ≠ 0)).map (fun b => (b, e)))) := by
  have hmem : ∀ q ∈ nonzeroPairs B E g, q.2 ∈ List.range E := by
    intro q hq
    simp only [nonzeroPairs, List.mem_flatMap, List.mem_map, List.mem_filter] at hq
    obtain ⟨b, _, e, ⟨he, _⟩, rfl⟩ := hq
    exact he
  have hsorted : (List.range E).Sorted (· < ·) := List.pairwise_lt_range E
  rw [sortedPairs, sortByExpert_eq_groupByKeys (List.range E) hsorted _ hmem]
  unfold groupByKeys
  refine List.flatMap_congr ?_
  intro e he
  have heE : e < E := List.mem_range.mp he
  unfold nonzeroPairs
  rw [List.filter_flatMap]
  have hrow : ∀ b : ℕ,
      (((List.range E).filter (fun x => mget g b x ≠ 0)).map (fun x => (b, x))).filter
          (fun q => decide (q.2 = e)) =
        if mget g b e ≠ 0 then [(b, e)] else [] := by
    intro b
    rw [List.filter_map, List.filter_filter]
    have hpred : (fun a => ((fun q : ℕ × ℕ => decide (q.2 = e)) ∘ fun x => (b, x)) a &&
        decide (mget g b a ≠ 0)) = fun x => decide (x = e) && decide (mget g b x ≠ 0) := rfl
    rw [hpred, filter_range_eq_singleton E e _ heE]
    by_cases hb : mget g b e ≠ 0
    · simp [hb]
    · simp [hb]
  calc (List.range B).flatMap (fun b =>
        (((List.range E).filter (fun x => mget g b x ≠ 0)).map (fun x => (b, x))).filter
          (fun q => decide (q.2 = e)))
      = (List.range B).flatMap (fun b => if mget g b e ≠ 0 then [(b, e)] else []) := by
        exact List.flatMap_congr (fun b _ => hrow b)
    _ = ((List.range B).filter (fun b => mget g b e ≠ 0)).map (fun b => (b, e)) := by
        induction (List.range B) with
        | nil => rfl
        | cons b bs ih =>
          rw [List.flatMap_cons, ih, List.filter_cons]
          by_cases hb : mget g b e ≠ 0
          · simp [hb]
          · simp [hb]

/-- Under non-negative gates (the only matrices the router produces) the
`gates != 0` test of `torch.nonzero` coincides with the `gates > 0` test of
`_part_sizes`. -/
theorem sortedPairs_eq_pos (B E : ℕ) (g : List (List α))
    (hnn : ∀ b e, 0 ≤ mget g b e) :
    sortedPairs B E g = (List.range E).flatMap
      (fun e => (((List.range B).filter (fun b => 0 < mget g b e)).map (fun b => (b, e)))) := by
  rw [sortedPairs_eq]
  refine List.flatMap_congr ?_
  intro e _
  have : ∀ b : ℕ, (decide (mget g b e ≠ 0)) = (decide (0 < mget g b e)) := by
    intro b
    have h := hnn b e
    by_cases hb : mget g b e = 0
    · simp [hb]
    · have : 0 < mget g b e := lt_of_le_of_ne h (Ne.symm hb)
      simp [hb, this]
  rw [List.filter_congr (fun b _ => this b)]

theorem splitSizes_of_groups {β : Type} (gs : List (List β)) :
    splitSizes gs.flatten (gs.map List.length) = gs := by
  induction gs with
  | nil => rfl
  | cons a gs ih =>
    rw [List.map_cons, List.flatten_cons, splitSizes]
    rw [List.take_left, List.drop_left, ih]

theorem getD_map_range {β : Type} (f : ℕ → β) (d : β) (e E : ℕ) (he : e < E) :
    ((List.range E).map f).getD e d = f e := by
  rw [List.getD_eq_getElem?_getD]
  simp [List.getElem?_map, List.getElem?_range, he]

theorem batchIndex_eq (B E : ℕ) (g : List (List α)) (hnn : ∀ b e, 0 ≤ mget g b e) :
    batchIndex B E g = (List.range E).flatMap
      (fun e => (List.range B).filter (fun b => 0 < mget g b e)) := by
  rw [batchIndex, sortedPairs_eq_pos B E g hnn, List.map_flatMap]
  refine List.flatMap_congr ?_
  intro e _
  rw [List.map_map]
  exact List.map_id _

theorem nonzeroGates_eq (B E : ℕ) (g : List (List α)) (hnn : ∀ b e, 0 ≤ mget g b e) :
    nonzeroGates B E g = (List.range E).flatMap
      (fun e => ((List.range B).filter (fun b => 0 < mget g b e)).map (fun b => mget g b e)) := by
  rw [nonzeroGates, sortedPairs_eq_pos B E g hnn, List.map_flatMap]
  refine List.flatMap_congr ?_
  intro e _
  rw [List.map_map]
  rfl

theorem dispatch_eq (B E : ℕ) (g : List (List α)) (inp : List α)
    (hnn : ∀ b e, 0 ≤ mget g b e) :
    dispatch B E g inp = (List.range E).map
      (fun e => ((List.range B).filter (fun b => 0 < mget g b e)).map (fun b => inp.getD b 0)) := by
  rw [dispatch, batchIndex_eq B E g hnn]
  rw [List.map_flatMap]
  have hflat : (List.range E).flatMap
      (fun e => ((List.range B).filter (fun b => 0 < mget g b e)).map (fun b => inp.getD b 0)) =
      ((List.range E).map
        (fun e => ((List.range B).filter (fun b => 0 < mget g b e)).map (fun b => inp.getD b 0))).flatten := by
    rw [List.flatMap_def]
  have hsizes : partSizes B E g =
      ((List.range E).map
        (fun e => ((List.range B).filter (fun b => 0 < mget g b e)).map (fun b => inp.getD b 0))).map
        List.length := by
    rw [partSizes, List.map_map]
    refine List.map_congr_left ?_
    intro e _
    simp
  rw [hflat, hsizes, splitSizes_of_groups]

/-- Entrywise non-negativity of a gate matrix follows from rowwise
non-negativity (out-of-range entries read as `0`). -/
theorem mget_nonneg_of_rows (g : List (List α))
    (h : ∀ row ∈ g, ∀ v ∈ row, 0 ≤ v) : ∀ b e, 0 ≤ mget g b e := by
  intro b e
  unfold mget
  rcases lt_or_ge b g.length with hb | hb
  · rw [List.getD_eq_getElem g [] hb]
    have hrow := h (g[b]) (List.getElem_mem hb)
    rcases lt_or_ge e (g[b]).length with he | he
    · rw [List.getD_eq_getElem _ 0 he]
      exact hrow _ (List.getElem_mem he)
    · rw [List.getD_eq_default _ 0 he]
  · rw [List.getD_eq_default g [] hb]
    simp [List.getD]

end DispatchLemmas

section CombineLemmas

theorem getD_replicate {α : Type} (r n : ℕ) (d : α) :
    (List.replicate r d).getD n d = d := by
  induction r generalizing n with
  | zero => simp [List.getD]
  | succ r ih =>
    cases n with
    | zero => rfl
    | succ n => exact ih n

theorem getD_map_of_lt {β γ : Type} (f : β → γ) (l : List β) (b : ℕ)
    (hb : b < l.length) (d : γ) (d2 : β) : (l.map f).getD b d = f (l.getD b d2) := by
  rw [List.getD_eq_getElem _ _ (by rw [List.length_map]; exact hb),
    List.getD_eq_getElem _ _ hb, List.getElem_map]

theorem getD_set_same {α : Type} (l : List α) (i : ℕ) (h : i < l.length) (v d : α) :
    (l.set i v).getD i d = v := by
  rw [List.getD_eq_getElem _ _ (by rw [List.length_set]; exact h)]
  exact List.getElem_set_self _

theorem getD_set_other {α : Type} (l : List α) (i j : ℕ) (h : i ≠ j) (v d : α) :
    (l.set i v).getD j d = l.getD j d := by
  rcases lt_or_ge j l.length with hj | hj
  · rw [List.getD_eq_getElem _ _ (by rw [List.length_set]; exact hj),
      List.getD_eq_getElem _ _ hj]
    exact List.getElem_set_ne h _
  · rw [List.getD_eq_default _ _ (by rw [List.length_set]; exact hj),
      List.getD_eq_default _ _ hj]

variable {α : Type} [LinearOrderedField α]

theorem indexAdd_length (ps : List (ℕ × α)) (init : List α) :
    (indexAdd init ps).length = init.length := by
  induction ps generalizing init with
  | nil => rfl
  | cons q ps ih =>
    rw [indexAdd, List.foldl_cons]
    rw [show List.foldl (fun acc q => acc.set q.1 (acc.getD q.1 0 + q.2))
      (init.set q.1 (init.getD q.1 0 + q.2)) ps =
      indexAdd (init.set q.1 (init.getD q.1 0 + q.2)) ps from rfl]
    rw [ih, List.length_set]

theorem indexAdd_getD (ps : List (ℕ × α)) (init : List α) (b : ℕ)
    (hb : b < init.length) :
    (indexAdd init ps).getD b 0 =
      init.getD b 0 + ((ps.filter (fun q => q.1 = b)).map Prod.snd).sum := by
  induction ps generalizing init with
  | nil => simp [indexAdd]
  | cons q ps ih =>
    obtain ⟨i, v⟩ := q
    rw [indexAdd, List.foldl_cons]
    rw [show List.foldl (fun acc q => acc.set q.1 (acc.getD q.1 0 + q.2))
      (init.set i (init.getD i 0 + v)) ps =
      indexAdd (init.set i (init.getD i 0 + v)) ps from rfl]
    rw [ih _ (by rw [List.length_set]; exact hb)]
    by_cases hib : i = b
    · subst hib
      rw [getD_set_same init i hb]
      have : List.filter (fun q => decide (q.1 = i)) ((i, v) :: ps) =
          (i, v) :: List.filter (fun q => decide (q.1 = i)) ps := by
        simp [List.filter_cons]
      rw [this, List.map_cons, List.sum_cons, add_assoc]
    · rw [getD_set_other init i b hib]
      have : List.filter (fun q => decide (q.1 = b)) ((i, v) :: ps) =
          List.filter (fun q => decide (q.1 = b)) ps := by
        simp [List.filter_cons, hib]
      rw [this]

theorem flatMap_if_singleton {β : Type} (l : List ℕ) (c : ℕ → Bool) (f : ℕ → β) :
    l.flatMap (fun e => if c e then [f e] else []) = (l.filter c).map f := by
  induction l with
  | nil => rfl
  | cons e l ih =>
    rw [List.flatMap_cons, ih, List.filter_cons]
    cases h : c e <;> simp [h]

end CombineLemmas

theorem zipWith_map_same {α β γ δ : Type} (f : γ → δ → β) (u : α → γ) (v : α → δ)
    (l : List α) : List.zipWith f (l.map u) (l.map v) = l.map (fun a => f (u a) (v a)) := by
  induction l with
  | nil => rfl
  | cons a l ih => simp [List.zipWith_cons_cons, ih]

section CombineCharacterization

/-- The per-worker output sub-batches, expressed through a function
`outs worker unit`: each sub-batch has exactly the partition's length and
lists the worker's output for its routed units in ascending unit order.
This parametrises "every list of per-expert output sub-batches whose
lengths match the partition sizes". -/
noncomputable def expertOutsOf (B E : ℕ) (g : List (List ℝ)) (outs : ℕ → ℕ → ℝ) :
    List (List ℝ) :=
  (List.range E).map
    (fun e => ((List.range B).filter (fun b => 0 < mget g b e)).map (fun b => outs e b))

theorem flatten_expertOutsOf (B E : ℕ) (g : List (List ℝ)) (outs : ℕ → ℕ → ℝ)
    (hnn : ∀ b e, 0 ≤ mget g b e) :
    (expertOutsOf B E g outs).flatten = (sortedPairs B E g).map (fun p => outs p.2 p.1) := by
  rw [expertOutsOf, ← List.flatMap_def, sortedPairs_eq_pos B E g hnn, List.map_flatMap]
  refine List.flatMap_congr ?_
  intro e _
  rw [List.map_map]
  rfl

/-- The `index_add` accumulation of any per-pair values laid out in the
dispatcher's order: slot `b` receives the sum of the values of the pairs
`(b, e)` with `gates[b][e] > 0`. -/
theorem combined_core_getD (B E : ℕ) (g : List (List ℝ)) (w : ℕ × ℕ → ℝ) (b : ℕ)
    (hb : b < B) (hnn : ∀ b2 e, 0 ≤ mget g b2 e) :
    (indexAdd (List.replicate B (0 : ℝ))
      ((batchIndex B E g).zip ((sortedPairs B E g).map w))).getD b 0 =
    (((List.range E).filter (fun e => 0 < mget g b e)).map (fun e => w (b, e))).sum := by
  have hzip : (batchIndex B E g).zip ((sortedPairs B E g).map w) =
      (sortedPairs B E g).map (fun p => (p.1, w p)) := by
    rw [batchIndex, List.zip_map']
  rw [hzip, indexAdd_getD _ _ b (by rw [List.length_replicate]; exact hb),
    getD_replicate]
  have hfil : ((sortedPairs B E g).map (fun p => (p.1, w p))).filter
      (fun q => decide (q.1 = b)) =
      ((sortedPairs B E g).filter (fun p => decide (p.1 = b))).map (fun p => (p.1, w p)) := by
    rw [List.filter_map]
    rfl
  rw [hfil, List.map_map]
  have hsp : (sortedPairs B E g).filter (fun p => decide (p.1 = b)) =
      ((List.range E).filter (fun e => 0 < mget g b e)).map (fun e => (b, e)) := by
    rw [sortedPairs_eq_pos B E g hnn, List.filter_flatMap]
    have hrow : ∀ e : ℕ,
        (((List.range B).filter (fun b2 => 0 < mget g b2 e)).map (fun b2 => (b2, e))).filter
            (fun p => decide (p.1 = b)) =
          if (0 < mget g b e : Bool) then [(b, e)] else [] := by
      intro e
      rw [List.filter_map, List.filter_filter]
      have hpred : (fun a => ((fun p : ℕ × ℕ => decide (p.1 = b)) ∘ fun b2 => (b2, e)) a &&
          decide (0 < mget g a e)) = fun b2 => decide (b2 = b) && decide (0 < mget g b2 e) := rfl
      rw [hpred, filter_range_eq_singleton B b _ hb]
      cases h : (decide (0 < mget g b e)) <;> simp [h]
    calc (List.range E).flatMap (fun e =>
          (((List.range B).filter (fun b2 => 0 < mget g b2 e)).map (fun b2 => (b2, e))).filter
            (fun p => decide (p.1 = b)))
        = (List.range E).flatMap (fun e => if (0 < mget g b e : Bool) then [(b, e)] else []) :=
          List.flatMap_congr (fun e _ => hrow e)
      _ = ((List.range E).filter (fun e => 0 < mget g b e)).map (fun e => (b, e)) :=
          flatMap_if_singleton _ _ _
  rw [hsp, List.map_map, zero_add]
  rfl

/-- Value of `combine` at unit `b`: the log of the accumulated linear-space
sum over the experts that processed `b` (exponentials, gated when
`multiply_by_gates`), or the log of machine epsilon when no expert did. -/
theorem combine_getD (B E : ℕ) (g : List (List ℝ)) (outs : ℕ → ℕ → ℝ) (flag : Bool)
    (b : ℕ) (hb : b < B) (hnn : ∀ b2 e, 0 ≤ mget g b2 e) :
    (combine B E g (expertOutsOf B E g outs) flag).getD b 0 =
      if ((List.range E).filter (fun e => 0 < mget g b e)) = [] then Real.log machineEps
      else Real.log ((((List.range E).filter (fun e => 0 < mget g b e)).map
        (fun e => (if flag then mget g b e else 1) * Real.exp (outs e b))).sum) := by
  have hst : (if flag then
        List.zipWith (· * ·) (nonzeroGates B E g)
          ((expertOutsOf B E g outs).flatten.map Real.exp)
      else (expertOutsOf B E g outs).flatten.map Real.exp) =
      (sortedPairs B E g).map
        (fun p => (if flag then mget g p.1 p.2 else 1) * Real.exp (outs p.2 p.1)) := by
    cases flag
    · simp only [Bool.false_eq_true, if_false]
      rw [flatten_expertOutsOf B E g outs hnn, List.map_map]
      refine List.map_congr_left ?_
      intro p _
      simp
    · simp only [if_true]
      rw [flatten_expertOutsOf B E g outs hnn, List.map_map, nonzeroGates, zipWith_map_same]
      rfl
  have hcore := combined_core_getD B E g
    (fun p => (if flag then mget g p.1 p.2 else 1) * Real.exp (outs p.2 p.1)) b hb hnn
  rw [combine]
  rw [hst]
  set comb := indexAdd (List.replicate B (0 : ℝ))
    ((batchIndex B E g).zip ((sortedPairs B E g).map
      (fun p => (if flag then mget g p.1 p.2 else 1) * Real.exp (outs p.2 p.1)))) with hcomb
  have hlen : comb.length = B := by
    rw [hcomb, indexAdd_length, List.length_replicate]
  have hmap2 : ((comb.map (fun v => if v = 0 then machineEps else v)).map Real.log).getD b 0 =
      Real.log (if comb.getD b 0 = 0 then machineEps else comb.getD b 0) := by
    rw [getD_map_of_lt Real.log _ b (by rw [List.length_map, hlen]; exact hb) 0
      (if (0:ℝ) = 0 then machineEps else 0)]
    rw [getD_map_of_lt _ _ b (by rw [hlen]; exact hb) _ 0]
  rw [hmap2, hcore]
  by_cases hroute : ((List.range E).filter (fun e => 0 < mget g b e)) = []
  · rw [if_pos hroute, hroute]
    simp
  · rw [if_neg hroute]
    have hpos : 0 < (((List.range E).filter (fun e => 0 < mget g b e)).map
        (fun e => (if flag then mget g b e else 1) * Real.exp (outs e b))).sum := by
      refine List.sum_pos _ ?_ ?_
      · intro x hx
        rw [List.mem_map] at hx
        obtain ⟨e, he, rfl⟩ := hx
        have hge : 0 < mget g b e := by
          have := (List.mem_filter.mp he).2
          exact of_decide_eq_true this
        have hexp : 0 < Real.exp (outs e b) := Real.exp_pos _
        cases flag
        · simpa using hexp
        · simpa using mul_pos hge hexp
      · intro hnil
        exact hroute (by simpa using List.map_eq_nil_iff.mp hnil)
    rw [if_neg (ne_of_gt hpos)]

theorem range_one_eq : List.range 1 = [0] := rfl

theorem combine_length (B E : ℕ) (g : List (List ℝ)) (eo : List (List ℝ)) (flag : Bool) :
    (combine B E g eo flag).length = B := by
  rw [combine]
  simp [indexAdd_length]

theorem routedFilter_eq_nil_iff (E : ℕ) (g : List (List ℝ)) (b : ℕ) :
    ((List.range E).filter (fun e => 0 < mget g b e)) = [] ↔
      ¬ ∃ e, e < E ∧ 0 < mget g b e := by
  rw [List.filter_eq_nil_iff]
  constructor
  · rintro h ⟨e, heE, hpos⟩
    exact h e (List.mem_range.mpr heE) (by simpa using hpos)
  · intro h e he hpos
    exact h ⟨e, List.mem_range.mp he, by simpa using hpos⟩

end CombineCharacterization

section Claims

/-- C5: for every non-negative gate matrix, the sub-batch `dispatch`
produces for expert `e` contains exactly the units `b` with
`gates[b, e] > 0`, in ascending original batch index, and the
`_batch_index` / `_nonzero_gates` bookkeeping that `combine` later uses
lists exactly these units in the same per-expert ascending order. -/
theorem claim_C5_dispatch_order {α : Type} [LinearOrderedField α] (B E : ℕ)
    (g : List (List α)) (inp : List α) (hnn : ∀ b e, 0 ≤ mget g b e) :
    dispatch B E g inp = (List.range E).map
      (fun e => ((List.range B).filter (fun b => 0 < mget g b e)).map (fun b => inp.getD b 0)) ∧
    batchIndex B E g = (List.range E).flatMap
      (fun e => (List.range B).filter (fun b => 0 < mget g b e)) ∧
    nonzeroGates B E g = (List.range E).flatMap
      (fun e => ((List.range B).filter (fun b => 0 < mget g b e)).map (fun b => mget g b e)) :=
  ⟨dispatch_eq B E g inp hnn, batchIndex_eq B E g hnn, nonzeroGates_eq B E g hnn⟩

/-- Witness for C5 at a concrete gate matrix over `ℚ`: three units, two
experts; expert 0 serves units 0 and 2, expert 1 serves units 0 and 1,
each group in ascending batch order. -/
theorem claim_C5_witness :
    dispatch 3 2 ([[2, 1], [0, 3], [5, 0]] : List (List ℚ)) [10, 20, 30] =
      [[10, 30], [10, 20]] ∧
    batchIndex 3 2 ([[2, 1], [0, 3], [5, 0]] : List (List ℚ)) = [0, 2, 0, 1] ∧
    nonzeroGates 3 2 ([[2, 1], [0, 3], [5, 0]] : List (List ℚ)) = [2, 5, 1, 3] := by
  obtain ⟨h1, h2, h3⟩ := claim_C5_dispatch_order 3 2
    ([[2, 1], [0, 3], [5, 0]] : List (List ℚ)) [10, 20, 30]
    (mget_nonneg_of_rows _ (by decide))
  refine ⟨?_, ?_, ?_⟩
  · rw [h1]; decide
  · rw [h2]; decide
  · rw [h3]; decide

/-- C9: `combine` unconditionally exponentiates the concatenated expert
outputs, accumulates (gated when `multiply_by_gates` is set, ungated
otherwise), replaces exact-zero accumulator slots by machine epsilon and
returns elementwise logarithms: every routed unit receives the log of the
accumulated linear-space sum, every unrouted unit receives
`log machineEps`, for either value of the flag. -/
theorem claim_C9_always_logspace (B E : ℕ) (g : List (List ℝ)) (outs : ℕ → ℕ → ℝ)
    (hnn : ∀ b e, 0 ≤ mget g b e) (b : ℕ) (hb : b < B) :
    ((∃ e, e < E ∧ 0 < mget g b e) →
      (combine B E g (expertOutsOf B E g outs) true).getD b 0 =
        Real.log ((((List.range E).filter (fun e => 0 < mget g b e)).map
          (fun e => mget g b e * Real.exp (outs e b))).sum) ∧
      (combine B E g (expertOutsOf B E g outs) false).getD b 0 =
        Real.log ((((List.range E).filter (fun e => 0 < mget g b e)).map
          (fun e => Real.exp (outs e b))).sum)) ∧
    ((¬ ∃ e, e < E ∧ 0 < mget g b e) → ∀ flag : Bool,
      (combine B E g (expertOutsOf B E g outs) flag).getD b 0 = Real.log machineEps) := by
  constructor
  · intro hroute
    have hne : ((List.range E).filter (fun e => 0 < mget g b e)) ≠ [] := by
      rw [Ne, routedFilter_eq_nil_iff]
      exact fun h => h hroute
    constructor
    · rw [combine_getD B E g outs true b hb hnn, if_neg hne]
      rfl
    · rw [combine_getD B E g outs false b hb hnn, if_neg hne]
      congr 1
      congr 1
      refine List.map_congr_left ?_
      intro e _
      simp
  · intro hnr flag
    have hnil : ((List.range E).filter (fun e => 0 < mget g b e)) = [] :=
      (routedFilter_eq_nil_iff E g b).mpr hnr
    rw [combine_getD B E g outs flag b hb hnn, if_pos hnil]

/-- Witness for C9 at a concrete input: two units, one expert, gates
`[[1/3], [0]]`, expert outputs `0`; unit 0 gets `log (1/3 · e⁰)` with the
flag and `log e⁰` without it, unit 1 gets `log machineEps`. -/
theorem claim_C9_witness :
    (combine 2 1 [[(1:ℝ)/3], [0]]
      (expertOutsOf 2 1 [[(1:ℝ)/3], [0]] (fun _ _ => 0)) true).getD 0 0 =
        Real.log (1/3) ∧
    (combine 2 1 [[(1:ℝ)/3], [0]]
      (expertOutsOf 2 1 [[(1:ℝ)/3], [0]] (fun _ _ => 0)) false).getD 0 0 = Real.log 1 ∧
    (combine 2 1 [[(1:ℝ)/3], [0]]
      (expertOutsOf 2 1 [[(1:ℝ)/3], [0]] (fun _ _ => 0)) true).getD 1 0 =
        Real.log machineEps := by
  have hnn : ∀ b e, 0 ≤ mget [[(1:ℝ)/3], [0]] b e := by
    refine mget_nonneg_of_rows _ ?_
    intro row hr v hv
    simp only [List.mem_cons, List.not_mem_nil, or_false] at hr
    rcases hr with rfl | rfl <;>
      (simp only [List.mem_cons, List.not_mem_nil, or_false] at hv; subst hv; norm_num)
  have hm00 : mget [[(1:ℝ)/3], [0]] 0 0 = 1/3 := by simp [mget]
  have hm10 : mget [[(1:ℝ)/3], [0]] 1 0 = 0 := by simp [mget]
  have hfil : (List.range 1).filter (fun e => 0 < mget [[(1:ℝ)/3], [0]] 0 e) = [0] := by
    rw [range_one_eq]
    rw [List.filter_cons]
    rw [if_pos (by rw [hm00]; norm_num)]
    rfl
  have h0 := claim_C9_always_logspace 2 1 [[(1:ℝ)/3], [0]] (fun _ _ => 0) hnn 0 (by norm_num)
  have h1 := claim_C9_always_logspace 2 1 [[(1:ℝ)/3], [0]] (fun _ _ => 0) hnn 1 (by norm_num)
  have hroute0 : ∃ e, e < 1 ∧ 0 < mget [[(1:ℝ)/3], [0]] 0 e :=
    ⟨0, by norm_num, by rw [hm00]; norm_num⟩
  have hnr1 : ¬ ∃ e, e < 1 ∧ 0 < mget [[(1:ℝ)/3], [0]] 1 e := by
    rintro ⟨e, he, hpos⟩
    have : e = 0 := by omega
    subst this
    rw [hm10] at hpos
    exact lt_irrefl 0 hpos
  obtain ⟨ht, hf⟩ := h0.1 hroute0
  refine ⟨?_, ?_, h1.2 hnr1 true⟩
  · rw [ht, hfil]
    norm_num [hm00, Real.exp_zero]
  · rw [hf, hfil]
    norm_num [Real.exp_zero]

/-- C1, counterexample to the claim as stated: with gate matrix `[[1/2]]`
and the single expert's output `0` for the single (routed) unit, `combine`
with `multiply_by_gates` returns `log (1/2 · e⁰) = log (1/2)`, not the
weighted sum `1/2 · 0 = 0`. -/
theorem claim_C1_counterexample :
    (0:ℝ) < mget [[(1:ℝ)/2]] 0 0 ∧
    (combine 1 1 [[(1:ℝ)/2]] [[0]] true).getD 0 0 = Real.log (1/2) ∧
    Real.log (1/2) ≠ 1/2 * (0:ℝ) := by
  have hnn : ∀ b e, 0 ≤ mget [[(1:ℝ)/2]] b e := by
    refine mget_nonneg_of_rows _ ?_
    intro row hr v hv
    simp only [List.mem_cons, List.not_mem_nil, or_false] at hr
    subst hr
    simp only [List.mem_cons, List.not_mem_nil, or_false] at hv
    subst hv
    norm_num
  have hm00 : mget [[(1:ℝ)/2]] 0 0 = 1/2 := by simp [mget]
  have hfil : (List.range 1).filter (fun e => 0 < mget [[(1:ℝ)/2]] 0 e) = [0] := by
    rw [range_one_eq, List.filter_cons, if_pos (by rw [hm00]; norm_num)]
    rfl
  have hout : expertOutsOf 1 1 [[(1:ℝ)/2]] (fun _ _ => 0) = [[0]] := by
    rw [expertOutsOf, range_one_eq, List.map_cons, List.map_nil]
    rw [List.filter_cons, if_pos (by rw [hm00]; norm_num)]
    rfl
  have h := combine_getD 1 1 [[(1:ℝ)/2]] (fun _ _ => 0) true 0 (by norm_num) hnn
  rw [hout, hfil] at h
  rw [if_neg (by simp)] at h
  refine ⟨by rw [hm00]; norm_num, ?_, ?_⟩
  · rw [h]
    norm_num [hm00, Real.exp_zero]
  · rw [mul_zero]
    intro hcontra
    rcases Real.log_eq_zero.mp hcontra with h1 | h1 | h1 <;> norm_num at h1

/-- C1 amended: `combine` with `multiply_by_gates` returns a length-`B`
sequence in which every unit with a nonzero gate receives the logarithm of
the gate-weighted sum of the exponentials of its experts' outputs (the
weighted sum taken in linear space), and every unit with no nonzero gate
receives `log machineEps`. -/
theorem claim_C1_amended (B E : ℕ) (g : List (List ℝ)) (outs : ℕ → ℕ → ℝ)
    (hnn : ∀ b e, 0 ≤ mget g b e) :
    (combine B E g (expertOutsOf B E g outs) true).length = B ∧
    ∀ b, b < B →
      ((∃ e, e < E ∧ 0 < mget g b e) →
        (combine B E g (expertOutsOf B E g outs) true).getD b 0 =
          Real.log ((((List.range E).filter (fun e => 0 < mget g b e)).map
            (fun e => mget g b e * Real.exp (outs e b))).sum)) ∧
      ((¬ ∃ e, e < E ∧ 0 < mget g b e) →
        (combine B E g (expertOutsOf B E g outs) true).getD b 0 = Real.log machineEps) := by
  refine ⟨combine_length B E g _ true, ?_⟩
  intro b hb
  constructor
  · intro hroute
    have hne : ((List.range E).filter (fun e => 0 < mget g b e)) ≠ [] := by
      rw [Ne, routedFilter_eq_nil_iff]
      exact fun h => h hroute
    rw [combine_getD B E g outs true b hb hnn, if_neg hne]
    rfl
  · intro hnr
    have hnil : ((List.range E).filter (fun e => 0 < mget g b e)) = [] :=
      (routedFilter_eq_nil_iff E g b).mpr hnr
    rw [combine_getD B E g outs true b hb hnn, if_pos hnil]

/-- Witness for the amended C1 at gates `[[3/4], [0]]`, expert output `0`:
the output has length 2, unit 0 receives `log (3/4)`, unit 1 receives
`log machineEps`. -/
theorem claim_C1_witness :
    (combine 2 1 [[(3:ℝ)/4], [0]]
      (expertOutsOf 2 1 [[(3:ℝ)/4], [0]] (fun _ _ => 0)) true).length = 2 ∧
    (combine 2 1 [[(3:ℝ)/4], [0]]
      (expertOutsOf 2 1 [[(3:ℝ)/4], [0]] (fun _ _ => 0)) true).getD 0 0 =
        Real.log (3/4) ∧
    (combine 2 1 [[(3:ℝ)/4], [0]]
      (expertOutsOf 2 1 [[(3:ℝ)/4], [0]] (fun _ _ => 0)) true).getD 1 0 =
        Real.log machineEps := by
  have hnn : ∀ b e, 0 ≤ mget [[(3:ℝ)/4], [0]] b e := by
    refine mget_nonneg_of_rows _ ?_
    intro row hr v hv
    simp only [List.mem_cons, List.not_mem_nil, or_false] at hr
    rcases hr with rfl | rfl <;>
      (simp only [List.mem_cons, List.not_mem_nil, or_false] at hv; subst hv; norm_num)
  have hm00 : mget [[(3:ℝ)/4], [0]] 0 0 = 3/4 := by simp [mget]
  have hm10 : mget [[(3:ℝ)/4], [0]] 1 0 = 0 := by simp [mget]
  have hfil : (List.range 1).filter (fun e => 0 < mget [[(3:ℝ)/4], [0]] 0 e) = [0] := by
    rw [range_one_eq, List.filter_cons, if_pos (by rw [hm00]; norm_num)]
    rfl
  obtain ⟨hlen, hval⟩ := claim_C1_amended 2 1 [[(3:ℝ)/4], [0]] (fun _ _ => 0) hnn
  refine ⟨hlen, ?_, ?_⟩
  · rw [(hval 0 (by norm_num)).1 ⟨0, by norm_num, by rw [hm00]; norm_num⟩, hfil]
    norm_num [hm00, Real.exp_zero]
  · refine (hval 1 (by norm_num)).2 ?_
    rintro ⟨e, he, hpos⟩
    have : e = 0 := by omega
    subst this
    rw [hm10] at hpos
    exact lt_irrefl 0 hpos

/-- C3, counterexample to the claim as stated: identity worker,
`multiply_by_gates = False`, gates `[[1/2]]`, payload `[1]`.  The
round-trip returns `log (exp 1) = 1` for the routed unit 0, not the
claimed weighted sum `1/2 · 1` (with the flag off the weights are ignored,
and the accumulation happens on exponentials). -/
theorem claim_C3_counterexample :
    (0:ℝ) < mget [[(1:ℝ)/2]] 0 0 ∧
    (combine 1 1 [[(1:ℝ)/2]] (dispatch 1 1 [[(1:ℝ)/2]] [1]) false).getD 0 0 = 1 ∧
    (1 : ℝ) ≠ 1/2 * 1 := by
  have hnn : ∀ b e, 0 ≤ mget [[(1:ℝ)/2]] b e := by
    refine mget_nonneg_of_rows _ ?_
    intro row hr v hv
    simp only [List.mem_cons, List.not_mem_nil, or_false] at hr
    subst hr
    simp only [List.mem_cons, List.not_mem_nil, or_false] at hv
    subst hv
    norm_num
  have hm00 : mget [[(1:ℝ)/2]] 0 0 = 1/2 := by simp [mget]
  have hfil : (List.range 1).filter (fun e => 0 < mget [[(1:ℝ)/2]] 0 e) = [0] := by
    rw [range_one_eq, List.filter_cons, if_pos (by rw [hm00]; norm_num)]
    rfl
  have hd : dispatch 1 1 [[(1:ℝ)/2]] [1] =
      expertOutsOf 1 1 [[(1:ℝ)/2]] (fun _ b => ([(1:ℝ)]).getD b 0) := by
    rw [dispatch_eq 1 1 _ _ hnn]
    rfl
  have h := combine_getD 1 1 [[(1:ℝ)/2]] (fun _ b => ([(1:ℝ)]).getD b 0) false 0
    (by norm_num) hnn
  rw [← hd, hfil, if_neg (by simp)] at h
  refine ⟨by rw [hm00]; norm_num, ?_, by norm_num⟩
  rw [h]
  norm_num [Real.log_exp]

/-- C3 amended: with identity workers and `multiply_by_gates = False`, the
round-trip gives each routed unit the log of the sum of the exponentials
of its payload over its routed workers, i.e. `log (n_b · exp payload)`
with `n_b` the number of routed workers (the weights are ignored); each
unrouted unit gets `log machineEps`. -/
theorem claim_C3_amended (B E : ℕ) (g : List (List ℝ)) (inp : List ℝ)
    (hnn : ∀ b e, 0 ≤ mget g b e) :
    ∀ b, b < B →
      ((∃ e, e < E ∧ 0 < mget g b e) →
        (combine B E g (dispatch B E g inp) false).getD b 0 =
          Real.log ((((List.range E).filter (fun e => 0 < mget g b e)).length : ℝ) *
            Real.exp (inp.getD b 0))) ∧
      ((¬ ∃ e, e < E ∧ 0 < mget g b e) →
        (combine B E g (dispatch B E g inp) false).getD b 0 = Real.log machineEps) := by
  have hd : dispatch B E g inp = expertOutsOf B E g (fun _ b2 => inp.getD b2 0) := by
    rw [dispatch_eq B E g inp hnn]
    rfl
  rw [hd]
  intro b hb
  constructor
  · intro hroute
    have hne : ((List.range E).filter (fun e => 0 < mget g b e)) ≠ [] := by
      rw [Ne, routedFilter_eq_nil_iff]
      exact fun h => h hroute
    rw [combine_getD B E g _ false b hb hnn, if_neg hne]
    congr 1
    have hconst : (((List.range E).filter (fun e => 0 < mget g b e)).map
        (fun e => (if false then mget g b e else 1) * Real.exp (inp.getD b 0))) =
        (((List.range E).filter (fun e => 0 < mget g b e)).map
          (fun _ => Real.exp (inp.getD b 0))) := by
      refine List.map_congr_left ?_
      intro e _
      simp
    rw [hconst, List.map_const', List.sum_replicate, nsmul_eq_mul]
  · intro hnr
    have hnil : ((List.range E).filter (fun e => 0 < mget g b e)) = [] :=
      (routedFilter_eq_nil_iff E g b).mpr hnr
    rw [combine_getD B E g _ false b hb hnn, if_pos hnil]

/-- Witness for the amended C3: gates `[[2/3], [0]]`, payload `[5, 7]`.
Unit 0 is routed to one worker and gets `log (1 · e⁵) = 5`; unit 1 is
unrouted and gets `log machineEps`. -/
theorem claim_C3_witness :
    (combine 2 1 [[(2:ℝ)/3], [0]] (dispatch 2 1 [[(2:ℝ)/3], [0]] [5, 7]) false).getD 0 0 =
      5 ∧
    (combine 2 1 [[(2:ℝ)/3], [0]] (dispatch 2 1 [[(2:ℝ)/3], [0]] [5, 7]) false).getD 1 0 =
      Real.log machineEps := by
  have hnn : ∀ b e, 0 ≤ mget [[(2:ℝ)/3], [0]] b e := by
    refine mget_nonneg_of_rows _ ?_
    intro row hr v hv
    simp only [List.mem_cons, List.not_mem_nil, or_false] at hr
    rcases hr with rfl | rfl <;>
      (simp only [List.mem_cons, List.not_mem_nil, or_false] at hv; subst hv; norm_num)
  have hm00 : mget [[(2:ℝ)/3], [0]] 0 0 = 2/3 := by simp [mget]
  have hm10 : mget [[(2:ℝ)/3], [0]] 1 0 = 0 := by simp [mget]
  have hfil : (List.range 1).filter (fun e => 0 < mget [[(2:ℝ)/3], [0]] 0 e) = [0] := by
    rw [range_one_eq, List.filter_cons, if_pos (by rw [hm00]; norm_num)]
    rfl
  have h := claim_C3_amended 2 1 [[(2:ℝ)/3], [0]] [5, 7] hnn
  constructor
  · rw [(h 0 (by norm_num)).1 ⟨0, by norm_num, by rw [hm00]; norm_num⟩, hfil]
    norm_num [Real.log_exp]
  · refine (h 1 (by norm_num)).2 ?_
    rintro ⟨e, he, hpos⟩
    have : e = 0 := by omega
    subst this
    rw [hm10] at hpos
    exact lt_irrefl 0 hpos

/-- C6, counterexample to the claim as stated: line 278 of the source
applies every expert to its sub-batch, with no empty-partition guard.
With gates `[[1, 0]]` expert 1 receives an empty sub-batch yet is still
invoked: an expert returning `[37]` on empty input makes the result differ
from the short-circuit semantics the spec prescribes. -/
theorem claim_C6_counterexample :
    appliedExperts 2 (fun i l => if i = 1 then [(37:ℚ)] else l)
        (dispatch 1 2 ([[1, 0]] : List (List ℚ)) [7]) ≠
      appliedExpertsSkipEmpty 2 (fun i l => if i = 1 then [(37:ℚ)] else l)
        (dispatch 1 2 ([[1, 0]] : List (List ℚ)) [7]) := by
  decide

/-- C6 amended: every expert is invoked on every forward call, including
experts whose partition is empty (the empty sub-batch is passed to the
expert, not short-circuited); for experts that map empty input to empty
output this is behaviourally identical to short-circuiting, so zero-length
partitions are handled without error. -/
theorem claim_C6_amended {β : Type} (E : ℕ) (experts : ℕ → List β → List β)
    (inps : List (List β)) (hpres : ∀ e, experts e [] = []) :
    appliedExperts E experts inps = appliedExpertsSkipEmpty E experts inps ∧
    (appliedExperts E experts inps).length = E := by
  constructor
  · unfold appliedExperts appliedExpertsSkipEmpty
    refine List.map_congr_left ?_
    intro i _
    by_cases h : (inps.getD i []).isEmpty
    · rw [if_pos h]
      have hempty : inps.getD i [] = [] := List.isEmpty_iff.mp h
      rw [hempty, hpres]
    · rw [if_neg h]
  · simp [appliedExperts]

/-- Witness for the amended C6: identity experts on a batch whose second
partition is empty. -/
theorem claim_C6_witness :
    appliedExperts 2 (fun _ l => l) ([[(1:ℚ)], []] : List (List ℚ)) =
      appliedExpertsSkipEmpty 2 (fun _ l => l) ([[(1:ℚ)], []] : List (List ℚ)) ∧
    (appliedExperts 2 (fun _ l => l) ([[(1:ℚ)], []] : List (List ℚ))).length = 2 :=
  claim_C6_amended 2 (fun _ l => l) [[(1:ℚ)], []] (fun _ => rfl)

/-- C7, counterexample to the claim as stated: `__init__` only asserts
`k <= num_experts`; it succeeds with `k = 0` (violating the claimed
`k ≥ 1` check) and with `num_experts = 0` (violating the claimed `E ≥ 1`
check). -/
theorem claim_C7_counterexample :
    (moeInit 4 3 0).isSome = true ∧ (moeInit 4 0 0).isSome = true := by
  constructor <;> simp [moeInit]

/-- C7 amended: construction fails (with an `AssertionError`) exactly when
`k > E`; it succeeds whenever `k ≤ E`, including the degenerate
configurations `k = 0` and `E = 0`.  No `E ≥ 1` or `k ≥ 1` check is
performed. -/
theorem claim_C7_amended (inputSize numExperts k : ℕ) :
    (moeInit inputSize numExperts k).isSome = true ↔ k ≤ numExperts := by
  rw [moeInit]
  by_cases h : k ≤ numExperts
  · simp [h]
  · simp [h]

end Claims

section GatingLemmas

theorem insertTop_perm (row : List ℝ) (i : ℕ) (l : List ℕ) :
    (insertTop row i l).Perm (i :: l) := by
  induction l with
  | nil => exact List.Perm.refl _
  | cons j l ih =>
    rw [insertTop]
    by_cases h : row.getD i 0 < row.getD j 0 ∨ (row.getD j 0 = row.getD i 0 ∧ j < i)
    · rw [if_pos h]
      exact (ih.cons j).trans (List.Perm.swap i j l)
    · rw [if_neg h]

theorem sortIdx_perm (row : List ℝ) (l : List ℕ) : (sortIdx row l).Perm l := by
  induction l with
  | nil => exact List.Perm.refl _
  | cons i l ih => exact (insertTop_perm row i (sortIdx row l)).trans (ih.cons i)

theorem argsortDesc_perm (row : List ℝ) :
    (argsortDesc row).Perm (List.range row.length) :=
  sortIdx_perm row _

theorem argsortDesc_nodup (row : List ℝ) : (argsortDesc row).Nodup :=
  ((argsortDesc_perm row).nodup_iff).mpr (List.nodup_range _)

theorem argsortDesc_length (row : List ℝ) : (argsortDesc row).length = row.length :=
  (argsortDesc_perm row).length_eq.trans (List.length_range _)

theorem mem_argsortDesc (row : List ℝ) (j : ℕ) : j ∈ argsortDesc row ↔ j < row.length := by
  rw [(argsortDesc_perm row).mem_iff, List.mem_range]

theorem foldlSet_length {β : Type} (ps : List (ℕ × β)) (init : List β) :
    (ps.foldl (fun acc q => acc.set q.1 q.2) init).length = init.length := by
  induction ps generalizing init with
  | nil => rfl
  | cons q ps ih =>
    rw [List.foldl_cons, ih, List.length_set]

theorem foldlSet_getD_not_mem {β : Type} (ps : List (ℕ × β)) (init : List β) (j : ℕ)
    (d : β) (h : ∀ q ∈ ps, q.1 ≠ j) :
    (ps.foldl (fun acc q => acc.set q.1 q.2) init).getD j d = init.getD j d := by
  induction ps generalizing init with
  | nil => rfl
  | cons q ps ih =>
    rw [List.foldl_cons, ih _ (fun r hr => h r (List.mem_cons_of_mem q hr))]
    exact getD_set_other init q.1 j (h q (List.mem_cons_self q ps)) q.2 d

theorem foldlSet_getD_mem {β : Type} (ps : List (ℕ × β)) (init : List β) (i : ℕ) (v : β)
    (d : β) (hnd : (ps.map Prod.fst).Nodup) (hmem : (i, v) ∈ ps) (hlen : i < init.length) :
    (ps.foldl (fun acc q => acc.set q.1 q.2) init).getD i d = v := by
  induction ps generalizing init with
  | nil => exact absurd hmem (List.not_mem_nil _)
  | cons q ps ih =>
    rw [List.map_cons, List.nodup_cons] at hnd
    rcases List.mem_cons.mp hmem with heq | hmem2
    · subst heq
      rw [List.foldl_cons,
        foldlSet_getD_not_mem ps _ i d
          (fun r hr hri => hnd.1 (by
            show i ∈ List.map Prod.fst ps
            rw [← hri]
            exact List.mem_map_of_mem Prod.fst hr))]
      exact getD_set_same init i hlen v d
    · rw [List.foldl_cons]
      refine ih (init.set q.1 q.2) hnd.2 hmem2 ?_
      rw [List.length_set]
      exact hlen

theorem scatterRow_eq {β : Type} [Zero β] (E : ℕ) (idxs : List ℕ) (vals : List β) :
    scatterRow E idxs vals =
      (idxs.zip vals).foldl (fun acc q => acc.set q.1 q.2) (List.replicate E 0) := rfl

theorem scatterRow_getD_not_mem {β : Type} [Zero β] (E : ℕ) (idxs : List ℕ)
    (vals : List β) (j : ℕ) (hj : j ∉ idxs) :
    (scatterRow E idxs vals).getD j 0 = 0 := by
  rw [scatterRow_eq, foldlSet_getD_not_mem _ _ j 0 (fun q hq hqj => by
    have := List.of_mem_zip hq
    exact hj (hqj ▸ this.1))]
  exact getD_replicate E j 0

theorem getD_pair_mem_zip {β γ : Type} (d1 : β) (d2 : γ) :
    ∀ (l1 : List β) (l2 : List γ) (t : ℕ), t < l1.length → t < l2.length →
      (l1.getD t d1, l2.getD t d2) ∈ l1.zip l2 := by
  intro l1
  induction l1 with
  | nil =>
    intro l2 t h1 _
    simp at h1
  | cons b l1 ih =>
    intro l2 t h1 h2
    cases l2 with
    | nil => simp at h2
    | cons c l2 =>
      cases t with
      | zero => exact List.mem_cons_self _ _
      | succ t =>
        refine List.mem_cons_of_mem _ ?_
        exact ih l2 t (by simpa using h1) (by simpa using h2)

theorem scatterRow_map_getD {β : Type} [Zero β] (E : ℕ) (idxs : List ℕ) (vals : List β)
    (hnd : idxs.Nodup) (hlen : vals.length = idxs.length) (hlt : ∀ j ∈ idxs, j < E) :
    idxs.map (fun j => (scatterRow E idxs vals).getD j 0) = vals := by
  apply List.ext_getElem (by rw [List.length_map, hlen])
  intro t h1 h2
  rw [List.getElem_map]
  have ht : t < idxs.length := by rw [List.length_map] at h1; exact h1
  rw [← List.getD_eq_getElem idxs 0 ht, ← List.getD_eq_getElem vals 0 h2]
  have hpair : (idxs.getD t 0, vals.getD t 0) ∈ idxs.zip vals :=
    getD_pair_mem_zip 0 0 idxs vals t ht h2
  refine foldlSet_getD_mem (idxs.zip vals) (List.replicate E 0) _ _ 0 ?_ hpair ?_
  · rw [List.map_fst_zip idxs vals (by omega)]
    exact hnd
  · rw [List.length_replicate]
    refine hlt _ ?_
    rw [List.getD_eq_getElem idxs 0 ht]
    exact List.getElem_mem ht

theorem sum_map_div (l : List ℝ) (f : ℝ → ℝ) (c : ℝ) :
    (l.map (fun y => f y / c)).sum = (l.map f).sum / c := by
  induction l with
  | nil => simp
  | cons a l ih => simp [ih, add_div]

theorem exp_sum_pos (v : List ℝ) (hv : v ≠ []) : 0 < (v.map Real.exp).sum := by
  refine List.sum_pos _ ?_ (by simpa using hv)
  intro x hx
  rw [List.mem_map] at hx
  obtain ⟨y, _, rfl⟩ := hx
  exact Real.exp_pos y

theorem softmaxRow_sum (v : List ℝ) (hv : v ≠ []) : (softmaxRow v).sum = 1 := by
  rw [softmaxRow, sum_map_div, div_self (ne_of_gt (exp_sum_pos v hv))]

theorem softmaxRow_pos (v : List ℝ) (hv : v ≠ []) : ∀ x ∈ softmaxRow v, 0 < x := by
  intro x hx
  rw [softmaxRow, List.mem_map] at hx
  obtain ⟨y, _, rfl⟩ := hx
  exact div_pos (Real.exp_pos y) (exp_sum_pos v hv)

theorem softmaxRow_length (v : List ℝ) : (softmaxRow v).length = v.length :=
  List.length_map v _

end GatingLemmas

section GatesRowSpec

theorem selected_take_eq (row : List ℝ) (k E : ℕ) (hkE : k ≤ E) :
    (topkIndices row (min (k + 1) E)).take k = (argsortDesc row).take k := by
  rw [topkIndices, List.take_take]
  congr 1
  omega

theorem selected_facts (row : List ℝ) (k E : ℕ) (hkE : k ≤ E) (hrow : row.length = E) :
    ((argsortDesc row).take k).length = k ∧ ((argsortDesc row).take k).Nodup ∧
      ∀ j ∈ (argsortDesc row).take k, j < E := by
  refine ⟨?_, ?_, ?_⟩
  · rw [List.length_take, argsortDesc_length, hrow]
    omega
  · exact (List.take_sublist k _).nodup (argsortDesc_nodup row)
  · intro j hj
    have hm := List.mem_of_mem_take hj
    rw [mem_argsortDesc, hrow] at hm
    exact hm

theorem topkvals_take_length (row : List ℝ) (k E : ℕ) (hkE : k ≤ E)
    (hrow : row.length = E) : ((topkValues row (min (k + 1) E)).take k).length = k := by
  rw [List.length_take, topkValues, List.length_map, topkIndices, List.length_take,
    argsortDesc_length, hrow]
  omega

/-- Structure of one gate row: length `E`, zero off the selected top-`k`
index set, and the selected positions carry exactly the softmax of the
top-`k` logits. -/
theorem gatesRow_spec (k E : ℕ) (row : List ℝ) (hkE : k ≤ E) (hrow : row.length = E) :
    (gatesRow k E row).length = E ∧
    (∀ j, j ∉ (argsortDesc row).take k → (gatesRow k E row).getD j 0 = 0) ∧
    ((argsortDesc row).take k).map (fun j => (gatesRow k E row).getD j 0) =
      softmaxRow ((topkValues row (min (k + 1) E)).take k) := by
  have hsel := selected_facts row k E hkE hrow
  have hvlen : (softmaxRow ((topkValues row (min (k + 1) E)).take k)).length = k := by
    rw [softmaxRow_length, topkvals_take_length row k E hkE hrow]
  have hgr : gatesRow k E row =
      scatterRow E ((argsortDesc row).take k)
        (softmaxRow ((topkValues row (min (k + 1) E)).take k)) := by
    rw [gatesRow, selected_take_eq row k E hkE]
  refine ⟨?_, ?_, ?_⟩
  · rw [hgr, scatterRow_eq, foldlSet_length, List.length_replicate]
  · intro j hj
    rw [hgr]
    exact scatterRow_getD_not_mem E _ _ j hj
  · rw [hgr]
    exact scatterRow_map_getD E _ _ hsel.2.1 (by rw [hvlen, hsel.1]) hsel.2.2

theorem gatingLogits_length (noisyGating train : Bool) (E : ℕ) (noiseEps : ℝ)
    (x wGate wNoise noise : List (List ℝ)) :
    (gatingLogits noisyGating train E noiseEps x wGate wNoise noise).length = x.length := by
  rw [gatingLogits]
  cases noisyGating
  · simp [matMul]
  · simp [noisyLogitsOf]

theorem gatingLogits_row_length (noisyGating train : Bool) (E : ℕ) (noiseEps : ℝ)
    (x wGate wNoise noise : List (List ℝ)) (b : ℕ) (hb : b < x.length)
    (hwg : (wGate.getD 0 []).length = E) :
    ((gatingLogits noisyGating train E noiseEps x wGate wNoise noise).getD b []).length = E := by
  rw [gatingLogits]
  cases noisyGating
  · simp only [Bool.false_eq_true, if_false]
    rw [matMul, getD_map_of_lt _ x b hb [] []]
    rw [List.length_map, List.length_range]
    exact hwg
  · simp only [if_true]
    rw [noisyLogitsOf, getD_map_range _ [] b x.length hb]
    simp

theorem gates_row_eq (noisyGating train : Bool) (k E : ℕ) (noiseEps : ℝ)
    (x wGate wNoise noise : List (List ℝ)) (cdf : ℝ → ℝ) (b : ℕ) (hb : b < x.length) :
    (noisyTopKGating noisyGating train k E noiseEps x wGate wNoise noise cdf).1.getD b [] =
      gatesRow k E
        ((gatingLogits noisyGating train E noiseEps x wGate wNoise noise).getD b []) := by
  have h : (noisyTopKGating noisyGating train k E noiseEps x wGate wNoise noise cdf).1 =
      (gatingLogits noisyGating train E noiseEps x wGate wNoise noise).map
        (fun row => gatesRow k E row) := rfl
  rw [h]
  exact getD_map_of_lt _ _ b
    (by rw [gatingLogits_length]; exact hb) [] []

/-- The nonzero positions of a gate row are exactly the selected top-`k`
indices; their values sum to the softmax total `1`; and the strictly
positive positions coincide with the nonzero positions. -/
theorem gatesRow_filters (k E : ℕ) (row : List ℝ) (hk1 : 1 ≤ k) (hkE : k ≤ E)
    (hrow : row.length = E) :
    ((List.range E).filter (fun j => (gatesRow k E row).getD j 0 ≠ 0)).length = k ∧
    (((List.range E).filter (fun j => (gatesRow k E row).getD j 0 ≠ 0)).map
      (fun j => (gatesRow k E row).getD j 0)).sum = 1 ∧
    (List.range E).filter (fun j => 0 < (gatesRow k E row).getD j 0) =
      (List.range E).filter (fun j => (gatesRow k E row).getD j 0 ≠ 0) := by
  obtain ⟨hlen, hzero, hmap⟩ := gatesRow_spec k E row hkE hrow
  obtain ⟨hslen, hsnd, hslt⟩ := selected_facts row k E hkE hrow
  have hvne : ((topkValues row (min (k + 1) E)).take k) ≠ [] := by
    intro h
    have hlt := topkvals_take_length row k E hkE hrow
    rw [h] at hlt
    simp at hlt
    omega
  have hposmem : ∀ j ∈ (argsortDesc row).take k, 0 < (gatesRow k E row).getD j 0 := by
    intro j hj
    have hin : (gatesRow k E row).getD j 0 ∈
        softmaxRow ((topkValues row (min (k + 1) E)).take k) := by
      rw [← hmap]
      exact List.mem_map_of_mem _ hj
    exact softmaxRow_pos _ hvne _ hin
  have hperm : ((List.range E).filter (fun j => (gatesRow k E row).getD j 0 ≠ 0)).Perm
      ((argsortDesc row).take k) := by
    refine (List.perm_ext_iff_of_nodup ((List.nodup_range E).filter _) hsnd).mpr ?_
    intro j
    rw [List.mem_filter, List.mem_range]
    constructor
    · rintro ⟨hjE, hne⟩
      by_contra hnot
      exact (of_decide_eq_true hne) (hzero j hnot)
    · intro hj
      exact ⟨hslt j hj, decide_eq_true (ne_of_gt (hposmem j hj))⟩
  refine ⟨hperm.length_eq.trans hslen, ?_, ?_⟩
  · rw [(hperm.map (fun j => (gatesRow k E row).getD j 0)).sum_eq, hmap]
    exact softmaxRow_sum _ hvne
  · refine List.filter_congr ?_
    intro j hjr
    show decide (0 < (gatesRow k E row).getD j 0) = decide ((gatesRow k E row).getD j 0 ≠ 0)
    by_cases hj : j ∈ (argsortDesc row).take k
    · have h1 := hposmem j hj
      rw [decide_eq_true h1, decide_eq_true (ne_of_gt h1)]
    · have h0 := hzero j hj
      rw [h0, decide_eq_false (lt_irrefl 0), decide_eq_false (by simp)]

end GatesRowSpec

section ClaimsGating

/-- C2: each row of the gate matrix returned by `noisy_top_k_gating` has
length `E`, at most `k` nonzero entries, its nonzero entries sum exactly
to `1` (hence to `1.0` within `1e-6`), and every non-selected entry is
exactly zero. -/
theorem claim_C2_row_invariants (noisyGating train : Bool) (k E : ℕ) (noiseEps : ℝ)
    (x wGate wNoise noise : List (List ℝ)) (cdf : ℝ → ℝ) (b : ℕ) (grow : List ℝ)
    (hk1 : 1 ≤ k) (hkE : k ≤ E) (hb : b < x.length)
    (hwg : (wGate.getD 0 []).length = E)
    (hgrow : grow =
      (noisyTopKGating noisyGating train k E noiseEps x wGate wNoise noise cdf).1.getD b []) :
    grow.length = E ∧
    ((List.range E).filter (fun j => grow.getD j 0 ≠ 0)).length ≤ k ∧
    (((List.range E).filter (fun j => grow.getD j 0 ≠ 0)).map (fun j => grow.getD j 0)).sum
      = 1 ∧
    ∀ j, j ∉ (topkIndices
        ((gatingLogits noisyGating train E noiseEps x wGate wNoise noise).getD b [])
        (min (k + 1) E)).take k → grow.getD j 0 = 0 := by
  subst hgrow
  rw [gates_row_eq noisyGating train k E noiseEps x wGate wNoise noise cdf b hb]
  have hrl : ((gatingLogits noisyGating train E noiseEps x wGate wNoise noise).getD b []).length
      = E := gatingLogits_row_length noisyGating train E noiseEps x wGate wNoise noise b hb hwg
  obtain ⟨hlen, hzero, _⟩ :=
    gatesRow_spec k E ((gatingLogits noisyGating train E noiseEps x wGate wNoise noise).getD b [])
      hkE hrl
  obtain ⟨hcount, hsum, _⟩ :=
    gatesRow_filters k E
      ((gatingLogits noisyGating train E noiseEps x wGate wNoise noise).getD b []) hk1 hkE hrl
  refine ⟨hlen, le_of_eq hcount, hsum, ?_⟩
  rw [selected_take_eq _ k E hkE]
  exact hzero

/-- Witness for C2: clean gating (`noisy_gating = False`), one expert,
`k = 1`, batch `[[1]]`, `w_gate = [[1]]`. -/
theorem claim_C2_witness :
    ((noisyTopKGating false false 1 1 (1/100) [[1]] [[1]] [[1]] [[0]]
      (fun t => t)).1.getD 0 []).length = 1 ∧
    ((List.range 1).filter (fun j =>
      ((noisyTopKGating false false 1 1 (1/100) [[1]] [[1]] [[1]] [[0]]
        (fun t => t)).1.getD 0 []).getD j 0 ≠ 0)).length ≤ 1 ∧
    (((List.range 1).filter (fun j =>
      ((noisyTopKGating false false 1 1 (1/100) [[1]] [[1]] [[1]] [[0]]
        (fun t => t)).1.getD 0 []).getD j 0 ≠ 0)).map (fun j =>
      ((noisyTopKGating false false 1 1 (1/100) [[1]] [[1]] [[1]] [[0]]
        (fun t => t)).1.getD 0 []).getD j 0)).sum = 1 := by
  obtain ⟨h1, h2, h3, _⟩ := claim_C2_row_invariants false false 1 1 (1/100)
    [[1]] [[1]] [[1]] [[0]] (fun t => t) 0 _ (le_refl 1) (le_refl 1)
    (by norm_num) (by simp) rfl
  exact ⟨h1, h2, h3⟩

/-- C10: with `1 ≤ k ≤ E`, every row of the gate matrix has exactly `k`
strictly positive entries (the softmax values scattered onto `k` distinct
expert slots), so a unit is never routed to zero workers. -/
theorem claim_C10_exactly_k_positive (noisyGating train : Bool) (k E : ℕ) (noiseEps : ℝ)
    (x wGate wNoise noise : List (List ℝ)) (cdf : ℝ → ℝ) (b : ℕ) (grow : List ℝ)
    (hk1 : 1 ≤ k) (hkE : k ≤ E) (hb : b < x.length)
    (hwg : (wGate.getD 0 []).length = E)
    (hgrow : grow =
      (noisyTopKGating noisyGating train k E noiseEps x wGate wNoise noise cdf).1.getD b []) :
    ((List.range E).filter (fun j => 0 < grow.getD j 0)).length = k ∧
    ∃ j, j < E ∧ 0 < grow.getD j 0 := by
  subst hgrow
  rw [gates_row_eq noisyGating train k E noiseEps x wGate wNoise noise cdf b hb]
  have hrl : ((gatingLogits noisyGating train E noiseEps x wGate wNoise noise).getD b []).length
      = E := gatingLogits_row_length noisyGating train E noiseEps x wGate wNoise noise b hb hwg
  obtain ⟨hcount, _, hposeq⟩ :=
    gatesRow_filters k E
      ((gatingLogits noisyGating train E noiseEps x wGate wNoise noise).getD b []) hk1 hkE hrl
  have hlen : ((List.range E).filter (fun j => 0 <
      (gatesRow k E ((gatingLogits noisyGating train E noiseEps x wGate wNoise
        noise).getD b [])).getD j 0)).length = k := by
    rw [hposeq]
    exact hcount
  refine ⟨hlen, ?_⟩
  have hne : ((List.range E).filter (fun j => 0 <
      (gatesRow k E ((gatingLogits noisyGating train E noiseEps x wGate wNoise
        noise).getD b [])).getD j 0)) ≠ [] := by
    intro h
    rw [h] at hlen
    simp at hlen
    omega
  obtain ⟨j, hj⟩ := List.exists_mem_of_ne_nil _ hne
  rw [List.mem_filter, List.mem_range] at hj
  exact ⟨j, hj.1, of_decide_eq_true hj.2⟩

/-- Witness for C10 at the same kind of concrete configuration. -/
theorem claim_C10_witness :
    ((List.range 2).filter (fun j =>
      0 < ((noisyTopKGating false false 1 2 (1/100) [[1]] [[1, 0]] [[1, 0]] [[0, 0]]
        (fun t => t)).1.getD 0 []).getD j 0)).length = 1 := by
  obtain ⟨h1, _⟩ := claim_C10_exactly_k_positive false false 1 2 (1/100)
    [[1]] [[1, 0]] [[1, 0]] [[0, 0]] (fun t => t) 0 _ (le_refl 1) (by norm_num)
    (by norm_num) (by simp) rfl
  exact h1

end ClaimsGating

section ClaimsLoss

theorem gatesToLoad_length {α : Type} [LinearOrderedField α] (B E : ℕ)
    (g : List (List α)) : (gatesToLoad B E g).length = E := by
  rw [gatesToLoad, List.length_map, List.length_range]

theorem noisyTopKGating_load_length (noisyGating train : Bool) (k E : ℕ) (noiseEps : ℝ)
    (x wGate wNoise noise : List (List ℝ)) (cdf : ℝ → ℝ) :
    ((noisyTopKGating noisyGating train k E noiseEps x wGate wNoise noise cdf).2).length
      = E := by
  simp only [noisyTopKGating]
  by_cases hcond : noisyGating = true ∧ k < E ∧ train = true
  · rw [if_pos hcond]
    simp
  · rw [if_neg hcond, List.length_map, gatesToLoad_length]

theorem importanceOf_length (B E : ℕ) (g : List (List ℝ)) :
    (importanceOf B E g).length = E := by
  simp [importanceOf]

/-- C8: the auxiliary loss returned by `forward` is
`loss_coef * (CV²(importance) + CV²(load))` with
`importance[e] = Σ_b gates[b, e]`, where `CV²(v)` is `0` on a single-entry
vector and otherwise the (unbiased) variance of `v` over `mean(v)² + 1e-10`;
in particular the loss is `0` whenever `E = 1`. -/
theorem claim_C8_loss_formula (noisyGating train : Bool) (k E : ℕ)
    (noiseEps lossCoef : ℝ) (wGate wNoise noise : List (List ℝ)) (cdf : ℝ → ℝ)
    (experts : ℕ → List ℝ → List ℝ) (gateX : List (List ℝ)) (x : List ℝ)
    (gates : List (List ℝ)) (load importance : List ℝ)
    (hg : gates =
      (noisyTopKGating noisyGating train k E noiseEps gateX wGate wNoise noise cdf).1)
    (hl : load =
      (noisyTopKGating noisyGating train k E noiseEps gateX wGate wNoise noise cdf).2)
    (himp : importance = importanceOf gateX.length E gates) :
    (forward noisyGating train k E noiseEps lossCoef wGate wNoise noise cdf experts
        gateX x).2 =
      lossCoef *
        ((if importance.length = 1 then 0
          else listVar importance / (listMean importance ^ 2 + 1e-10)) +
         (if load.length = 1 then 0
          else listVar load / (listMean load ^ 2 + 1e-10))) ∧
    (E = 1 →
      (forward noisyGating train k E noiseEps lossCoef wGate wNoise noise cdf experts
        gateX x).2 = 0) := by
  have hloss : (forward noisyGating train k E noiseEps lossCoef wGate wNoise noise cdf
      experts gateX x).2 = (cvSquared importance + cvSquared load) * lossCoef := by
    rw [himp, hg, hl]
    rfl
  have hcv : ∀ v : List ℝ, cvSquared v =
      if v.length = 1 then 0 else listVar v / (listMean v ^ 2 + 1e-10) := fun _ => rfl
  constructor
  · rw [hloss, hcv, hcv, mul_comm]
  · intro hE1
    have hlimp : importance.length = 1 := by
      rw [himp, importanceOf_length, hE1]
    have hlload : load.length = 1 := by
      rw [hl, noisyTopKGating_load_length, hE1]
    rw [hloss, hcv, hcv, if_pos hlimp, if_pos hlload]
    ring

/-- Witness for C8 in the single-expert configuration: the fairness loss
is `0` when `E = 1`. -/
theorem claim_C8_witness :
    (forward false false 1 1 (1/100) 5 [[1]] [[1]] [[0]] (fun t => t)
      (fun _ l => l) [[2]] [3]).2 = 0 :=
  (claim_C8_loss_formula false false 1 1 (1/100) 5 [[1]] [[1]] [[0]] (fun t => t)
    (fun _ l => l) [[2]] [3] _ _ _ rfl rfl rfl).2 rfl

end ClaimsLoss

section ClaimsLoad

/-- Modelled from the spec: the per-entry top-`k` probability as the claim
reads positionally — "the k-th or (k+1)-th largest noisy score according
to whether the expert's current noisy score is inside or outside the
top-k", i.e. threshold = the k-th largest (flattened position
`b*m + k - 1`) when inside, the (k+1)-th largest (position `b*m + k`) when
outside.  The source uses the opposite pairing. -/
noncomputable def probInTopKClaim (cdf : ℝ → ℝ)
    (clean noisy stddev topValues : List (List ℝ)) (k b e : ℕ) : ℝ :=
  let m := (topValues.getD 0 []).length
  let flat := topValues.flatten
  let thrKplus1 := flat.getD (b * m + k) 0
  let thrK := flat.getD (b * m + k - 1) 0
  if thrKplus1 < mget noisy b e then cdf ((mget clean b e - thrK) / mget stddev b e)
  else cdf ((mget clean b e - thrKplus1) / mget stddev b e)

/-- Modelled from the spec: the load vector the claim describes, i.e. the
column sums of `probInTopKClaim`. -/
noncomputable def loadPerClaim (cdf : ℝ → ℝ)
    (clean noisy stddev topValues : List (List ℝ)) (k B E : ℕ) : List ℝ :=
  (List.range E).map (fun e =>
    ((List.range B).map (fun b => probInTopKClaim cdf clean noisy stddev topValues k b e)).sum)

theorem flatten_getD_uniform {β : Type} (rows : List (List β)) (m : ℕ)
    (hm : ∀ r ∈ rows, r.length = m) (b j : ℕ) (hb : b < rows.length) (hj : j < m)
    (d : β) : rows.flatten.getD (b * m + j) d = (rows.getD b []).getD j d := by
  induction rows generalizing b with
  | nil => simp at hb
  | cons r rs ih =>
    rw [List.flatten_cons]
    have hr : r.length = m := hm r (List.mem_cons_self r rs)
    cases b with
    | zero =>
      rw [List.getD_append _ _ _ _ (by omega)]
      simp
    | succ b =>
      rw [List.getD_append_right _ _ _ _ (by rw [hr, Nat.succ_mul]; omega)]
      have harith : (b + 1) * m + j - r.length = b * m + j := by
        rw [hr, Nat.succ_mul]
        omega
      rw [harith, ih (fun r2 h2 => hm r2 (List.mem_cons_of_mem r h2)) b
        (by simpa using hb)]
      simp

theorem topkValues_length (row : List ℝ) (m : ℕ) :
    (topkValues row m).length = min m row.length := by
  rw [topkValues, List.length_map, topkIndices, List.length_take, argsortDesc_length]

theorem noisyLogitsOf_length (train : Bool) (E : ℕ) (noiseEps : ℝ)
    (x wGate wNoise noise : List (List ℝ)) :
    (noisyLogitsOf train E noiseEps x wGate wNoise noise).length = x.length := by
  rw [noisyLogitsOf, List.length_map, List.length_range]

theorem noisyLogitsOf_row_length (train : Bool) (E : ℕ) (noiseEps : ℝ)
    (x wGate wNoise noise : List (List ℝ)) :
    ∀ r ∈ noisyLogitsOf train E noiseEps x wGate wNoise noise, r.length = E := by
  intro r hr
  rw [noisyLogitsOf] at hr
  obtain ⟨b, _, rfl⟩ := List.mem_map.mp hr
  rw [List.length_map, List.length_range]

/-- C4 amended: when noisy gating is enabled, training, and `k < E`, the
load entry for expert `e` is the sum over units `b` of
`cdf((clean[b,e] - threshold)/stddev[b,e])`, where the threshold is the
`(k+1)`-th largest noisy score of the unit's row (position `k` of the
descending top list) when the expert's noisy score is inside the top-`k`
(i.e. exceeds that value), and the `k`-th largest (position `k - 1`)
otherwise; in every other configuration `load[e]` is the number of units
with a nonzero gate for `e`. -/
theorem claim_C4_load_formula (noisyGating train : Bool) (k E : ℕ) (noiseEps : ℝ)
    (x wGate wNoise noise : List (List ℝ)) (cdf : ℝ → ℝ) (e : ℕ)
    (hk1 : 1 ≤ k) (he : e < E)
    (clean noisyL stdv : List (List ℝ))
    (hclean : clean = matMul x wGate)
    (hnoisyL : noisyL = noisyLogitsOf train E noiseEps x wGate wNoise noise)
    (hstdv : stdv = noiseStddevOf train noiseEps x wNoise) :
    ((noisyGating = true ∧ k < E ∧ train = true) →
      (noisyTopKGating noisyGating train k E noiseEps x wGate wNoise noise cdf).2.getD e 0 =
        ((List.range x.length).map (fun b =>
          if (topkValues (noisyL.getD b []) (min (k + 1) E)).getD k 0 < mget noisyL b e then
            cdf ((mget clean b e -
              (topkValues (noisyL.getD b []) (min (k + 1) E)).getD k 0) / mget stdv b e)
          else
            cdf ((mget clean b e -
              (topkValues (noisyL.getD b []) (min (k + 1) E)).getD (k - 1) 0) /
                mget stdv b e))).sum) ∧
    (¬ (noisyGating = true ∧ k < E ∧ train = true) →
      (noisyTopKGating noisyGating train k E noiseEps x wGate wNoise noise cdf).2.getD e 0 =
        ((((List.range x.length).filter (fun b =>
          0 < mget (noisyTopKGating noisyGating train k E noiseEps x wGate wNoise noise
            cdf).1 b e)).length : ℕ) : ℝ)) := by
  subst hclean hnoisyL hstdv
  constructor
  · rintro ⟨hng, hkE2, htr⟩
    subst hng
    subst htr
    have hglog : gatingLogits true true E noiseEps x wGate wNoise noise =
        noisyLogitsOf true E noiseEps x wGate wNoise noise := rfl
    have h2 : (noisyTopKGating true true k E noiseEps x wGate wNoise noise cdf).2 =
        (List.range E).map (fun e2 =>
          ((List.range x.length).map (fun b =>
            probInTopK cdf (matMul x wGate)
              (noisyLogitsOf true E noiseEps x wGate wNoise noise)
              (noiseStddevOf true noiseEps x wNoise)
              ((gatingLogits true true E noiseEps x wGate wNoise noise).map
                (fun row => topkValues row (min (k + 1) E))) k b e2)).sum) := by
      simp only [noisyTopKGating]
      rw [if_pos ⟨trivial, hkE2, trivial⟩]
    rw [h2, getD_map_range _ 0 e E he]
    congr 1
    refine List.map_congr_left ?_
    intro b hb
    have hbB : b < x.length := List.mem_range.mp hb
    have hB1 : 0 < x.length := by omega
    set topL := (gatingLogits true true E noiseEps x wGate wNoise noise).map
      (fun row => topkValues row (min (k + 1) E)) with htopL
    have hloglen : (gatingLogits true true E noiseEps x wGate wNoise noise).length
        = x.length := by
      rw [hglog, noisyLogitsOf_length]
    have hrowsm : ∀ r ∈ topL, r.length = min (k + 1) E := by
      intro r hr
      rw [htopL] at hr
      obtain ⟨row, hrow, rfl⟩ := List.mem_map.mp hr
      rw [topkValues_length]
      rw [hglog] at hrow
      rw [noisyLogitsOf_row_length true E noiseEps x wGate wNoise noise row hrow]
      omega
    have htopLget : ∀ b2, b2 < x.length → topL.getD b2 [] =
        topkValues ((noisyLogitsOf true E noiseEps x wGate wNoise noise).getD b2 [])
          (min (k + 1) E) := by
      intro b2 hb2
      rw [htopL, getD_map_of_lt _ _ b2 (by rw [hloglen]; exact hb2) [] [], hglog]
    have hm0 : (topL.getD 0 []).length = min (k + 1) E := by
      rw [htopLget 0 hB1, topkValues_length]
      have := noisyLogitsOf_row_length true E noiseEps x wGate wNoise noise
        ((noisyLogitsOf true E noiseEps x wGate wNoise noise).getD 0 [])
        (by
          rw [List.getD_eq_getElem _ _ (by rw [noisyLogitsOf_length]; exact hB1)]
          exact List.getElem_mem _)
      rw [this]
      omega
    have hkm : k < min (k + 1) E := by omega
    have hkm2 : k - 1 < min (k + 1) E := by omega
    have hflatIn : topL.flatten.getD (b * (topL.getD 0 []).length + k) 0 =
        (topL.getD b []).getD k 0 := by
      rw [hm0]
      exact flatten_getD_uniform topL (min (k + 1) E) hrowsm b k
        (by rw [List.length_map, hloglen]; exact hbB) hkm 0
    have hflatOut : topL.flatten.getD (b * (topL.getD 0 []).length + k - 1) 0 =
        (topL.getD b []).getD (k - 1) 0 := by
      rw [hm0]
      have harith : b * min (k + 1) E + k - 1 = b * min (k + 1) E + (k - 1) := by omega
      rw [harith]
      exact flatten_getD_uniform topL (min (k + 1) E) hrowsm b (k - 1)
        (by rw [List.length_map, hloglen]; exact hbB) hkm2 0
    rw [probInTopK]
    rw [hflatIn, hflatOut, htopLget b hbB]
  · intro hncond
    have h2 : (noisyTopKGating noisyGating train k E noiseEps x wGate wNoise noise cdf).2 =
        (gatesToLoad x.length E
          ((gatingLogits noisyGating train E noiseEps x wGate wNoise noise).map
            (fun row => gatesRow k E row))).map (fun n : ℕ => (n : ℝ)) := by
      simp only [noisyTopKGating]
      rw [if_neg hncond]
    rw [h2, getD_map_of_lt _ _ e (by rw [gatesToLoad_length]; exact he) 0 0,
      gatesToLoad, getD_map_range _ 0 e E he]
    rfl

theorem eval_matMul_one (a c : ℝ) : matMul [[1]] [[a, c]] = [[a, c]] := by
  rw [matMul]
  norm_num [mget, List.range_succ]

theorem eval_noiseStddev :
    noiseStddevOf true (1/100) [[1]] [[(0:ℝ), 0]] =
      [[softplus 0 + 1/100, softplus 0 + 1/100]] := by
  rw [noiseStddevOf, eval_matMul_one 0 0]
  norm_num

theorem eval_noisyLogits (a : ℝ) :
    noisyLogitsOf true 2 (1/100) [[1]] [[a, 0]] [[0, 0]] [[0, 0]] = [[a, 0]] := by
  rw [noisyLogitsOf, eval_matMul_one a 0, eval_noiseStddev]
  norm_num [mget, List.range_succ]

theorem eval_argsort (a : ℝ) (ha : 0 ≤ a) : argsortDesc [a, 0] = [0, 1] := by
  rw [argsortDesc, show ([a, 0].length) = 2 from rfl,
    show List.range 2 = [0, 1] from rfl]
  rw [sortIdx, sortIdx, sortIdx, insertTop, insertTop]
  rw [if_neg (by norm_num [List.getD]; linarith)]

theorem eval_topkValues (a : ℝ) (ha : 0 ≤ a) : topkValues [a, 0] (min 2 2) = [a, 0] := by
  rw [topkValues, topkIndices, eval_argsort a ha]
  norm_num [List.getD]

/-- C4, counterexample to the claim as stated: in the configuration
`x = [[1]]`, `w_gate = [[2, 0]]`, `w_noise = 0`, zero noise sample,
`k = 1`, `E = 2`, training with noisy gating, expert 0's noisy score `2`
is inside the top-1.  The source uses the `(k+1)`-th largest score `0` as
threshold and returns `cdf(2/σ)`; the claim's pairing (the `k`-th largest,
`2`, when inside) would give `cdf(0) `, which differs for the injective
cdf abstraction `id`. -/
theorem claim_C4_counterexample :
    (noisyTopKGating true true 1 2 (1/100) [[1]] [[2, 0]] [[0, 0]] [[0, 0]]
      (fun t => t)).2.getD 0 0 = 2 / (softplus 0 + 1/100) ∧
    (loadPerClaim (fun t => t) (matMul [[1]] [[2, 0]])
      (noisyLogitsOf true 2 (1/100) [[1]] [[2, 0]] [[0, 0]] [[0, 0]])
      (noiseStddevOf true (1/100) [[1]] [[0, 0]])
      ((gatingLogits true true 2 (1/100) [[1]] [[2, 0]] [[0, 0]] [[0, 0]]).map
        (fun row => topkValues row (min 2 2))) 1 1 2).getD 0 0 = 0 ∧
    2 / (softplus 0 + 1/100) ≠ 0 := by
  have hglog : gatingLogits true true 2 (1/100) [[1]] [[(2:ℝ), 0]] [[0, 0]] [[0, 0]] =
      [[2, 0]] := by
    rw [show gatingLogits true true 2 (1/100) [[1]] [[(2:ℝ), 0]] [[0, 0]] [[0, 0]] =
      noisyLogitsOf true 2 (1/100) [[1]] [[(2:ℝ), 0]] [[0, 0]] [[0, 0]] from rfl,
      eval_noisyLogits 2]
  have htopL : (gatingLogits true true 2 (1/100) [[1]] [[(2:ℝ), 0]] [[0, 0]] [[0, 0]]).map
      (fun row => topkValues row (min 2 2)) = [[2, 0]] := by
    rw [hglog, List.map_cons, List.map_nil, eval_topkValues 2 (by norm_num)]
  have hsigma : 0 < softplus 0 + 1/100 := by
    have h2 : (0:ℝ) < softplus 0 := Real.log_pos (by norm_num)
    linarith
  refine ⟨?_, ?_, ?_⟩
  · have h2 : (noisyTopKGating true true 1 2 (1/100) [[1]] [[(2:ℝ), 0]] [[0, 0]] [[0, 0]]
        (fun t => t)).2 =
        (List.range 2).map (fun e2 =>
          ((List.range 1).map (fun b =>
            probInTopK (fun t => t) (matMul [[1]] [[2, 0]])
              (noisyLogitsOf true 2 (1/100) [[1]] [[2, 0]] [[0, 0]] [[0, 0]])
              (noiseStddevOf true (1/100) [[1]] [[0, 0]])
              ((gatingLogits true true 2 (1/100) [[1]] [[2, 0]] [[0, 0]] [[0, 0]]).map
                (fun row => topkValues row (min 2 2))) 1 b e2)).sum) := by
      simp only [noisyTopKGating]
      rw [if_pos ⟨trivial, by norm_num, trivial⟩]
      rfl
    rw [h2, getD_map_range _ 0 0 2 (by norm_num), range_one_eq, List.map_cons,
      List.map_nil, List.sum_cons, List.sum_nil, add_zero]
    rw [probInTopK, htopL, eval_matMul_one 2 0, eval_noisyLogits 2, eval_noiseStddev]
    rw [if_pos (by norm_num [mget, List.getD])]
    norm_num [mget, List.getD]
  · rw [loadPerClaim, getD_map_range _ 0 0 2 (by norm_num), range_one_eq, List.map_cons,
      List.map_nil, List.sum_cons, List.sum_nil, add_zero]
    rw [probInTopKClaim, htopL, eval_matMul_one 2 0, eval_noisyLogits 2, eval_noiseStddev]
    rw [if_pos (by norm_num [mget, List.getD])]
    norm_num [mget, List.getD]
  · exact ne_of_gt (div_pos (by norm_num) hsigma)

/-- Witness for the amended C4 at a concrete training trace with zero
noise sample: expert 0's load is `cdf(3/σ)` with `cdf = id`. -/
theorem claim_C4_witness :
    (noisyTopKGating true true 1 2 (1/100) [[1]] [[3, 0]] [[0, 0]] [[0, 0]]
      (fun t => t)).2.getD 0 0 = 3 / (softplus 0 + 1/100) := by
  have happ := (claim_C4_load_formula true true 1 2 (1/100) [[1]] [[3, 0]] [[0, 0]] [[0, 0]]
    (fun t => t) 0 (le_refl 1) (by norm_num) _ _ _ rfl rfl rfl).1 ⟨rfl, by norm_num, rfl⟩
  rw [happ, show ([[(1:ℝ)]].length) = 1 from rfl, range_one_eq, List.map_cons,
    List.map_nil, List.sum_cons, List.sum_nil, add_zero]
  rw [eval_noisyLogits 3, eval_matMul_one 3 0, eval_noiseStddev]
  rw [show ([[(3:ℝ), 0]].getD 0 []) = [(3:ℝ), 0] from rfl]
  rw [show (min (1 + 1) 2) = min 2 2 from rfl]
  rw [eval_topkValues 3 (by norm_num)]
  rw [if_pos (by norm_num [mget, List.getD])]
  norm_num [mget, List.getD]

end ClaimsLoad

end MoE
